import Mathlib

/-!
# Verification of the resource-sharing access-resolution engine

Shallow embedding of `src/services/accessService.js` together with the
persistence behaviour it relies on (`src/models/index.js`, ElectroDB over
DynamoDB).  Data records become Lean structures, the DynamoDB tables become
lists inside a `Store`, and each service method becomes a pure function on
`Store`.  Where the service's behaviour depends on the store layer the
embedding follows the documented DynamoDB/ElectroDB semantics:

* an ElectroDB `query` returns the items of one partition sorted ascending
  by the encoded sort key (for `ResourceSharing.query.primary` the sort key
  is `#sharetype_<shareType>#targetid_<targetId>`, and the three share-type
  strings order `"global" < "group" < "user"` lexicographically);
* `Entity.create` performs a conditional put that fails when an item with
  the same key already exists;
* `Entity.delete` of an absent key is a no-op;
* `get` of an absent key yields no data.
-/

/-- A row of the Users table (`User` entity in `src/models/index.js`). -/
structure UserRec where
  userId : String
  email : String
  name : String
  createdAt : String
  updatedAt : String
deriving DecidableEq

/-- A row of the Groups table (`Group` entity). -/
structure GroupRec where
  groupId : String
  name : String
  description : String
deriving DecidableEq

/-- A row of the user-group membership table (`UserGroup` entity). -/
structure MembershipRec where
  userId : String
  groupId : String
  joinedAt : String
deriving DecidableEq

/-- A row of the Resources table (`Resource` entity).  The JS attribute
`type` is a Lean keyword and is embedded as `rtype`. -/
structure ResourceRec where
  resourceId : String
  name : String
  description : String
  rtype : String
  ownerId : String
  isGlobal : Bool
  createdAt : String
  updatedAt : String
deriving DecidableEq

/-- The closed `shareType` enumeration of the `ResourceSharing` entity
(`type: ['user', 'group', 'global']`). -/
inductive ShareType where
  | user
  | group
  | global
deriving DecidableEq

/-- A row of the sharing table (`ResourceSharing` entity); its key is
`(resourceId, shareType, targetId)`. -/
structure ShareGrant where
  resourceId : String
  shareType : ShareType
  targetId : String
  sharedBy : String
  sharedAt : String
  permissions : List String
deriving DecidableEq

/-- The state of the persistence layer: one list per DynamoDB table. -/
structure Store where
  users : List UserRec
  groups : List GroupRec
  memberships : List MembershipRec
  resources : List ResourceRec
  grants : List ShareGrant
deriving DecidableEq

/-- `User.get({userId}).go()`. -/
def getUser (s : Store) (userId : String) : Option UserRec :=
  s.users.find? (fun u => u.userId == userId)

/-- `Group.get({groupId}).go()`. -/
def getGroup (s : Store) (groupId : String) : Option GroupRec :=
  s.groups.find? (fun g => g.groupId == groupId)

/-- `Resource.get({resourceId}).go()`. -/
def getResource (s : Store) (resourceId : String) : Option ResourceRec :=
  s.resources.find? (fun r => r.resourceId == resourceId)

/-- `ResourceSharing.query.primary({resourceId}).go()`: the partition of the
resource, sorted ascending by the encoded sort key
`#sharetype_<shareType>#targetid_<targetId>`.  Lexicographically the encoded
share types order `"global" < "group" < "user"`, so the result is the
global-type grants, then the group-type grants, then the user-type grants,
each block sorted by `targetId`. -/
def grantsOfResource (s : Store) (resourceId : String) : List ShareGrant :=
  let l := s.grants.filter (fun g => g.resourceId == resourceId)
  List.insertionSort (fun a b => a.targetId ≤ b.targetId)
      (l.filter (fun g => g.shareType == ShareType.global))
    ++ List.insertionSort (fun a b => a.targetId ≤ b.targetId)
      (l.filter (fun g => g.shareType == ShareType.group))
    ++ List.insertionSort (fun a b => a.targetId ≤ b.targetId)
      (l.filter (fun g => g.shareType == ShareType.user))

/-- `ResourceSharing.query.byTarget({targetId}).go()`: one GSI partition,
sorted by its sort key `resourceId`. -/
def grantsTargeting (s : Store) (targetId : String) : List ShareGrant :=
  List.insertionSort (fun a b => a.resourceId ≤ b.resourceId)
    (s.grants.filter (fun g => g.targetId == targetId))

/-- `UserGroup.query.primary({userId}).go()`: memberships of one user,
sorted by the sort key `groupId`. -/
def membershipsOfUser (s : Store) (userId : String) : List MembershipRec :=
  List.insertionSort (fun a b => a.groupId ≤ b.groupId)
    (s.memberships.filter (fun m => m.userId == userId))

/-- `UserGroup.query.byGroup({groupId}).go()`: members of one group, sorted
by the GSI sort key `userId`. -/
def membersOfGroup (s : Store) (groupId : String) : List MembershipRec :=
  List.insertionSort (fun a b => a.userId ≤ b.userId)
    (s.memberships.filter (fun m => m.groupId == groupId))

/-- `Resource.query.globalResources({isGlobal: true}).go()`: the resources
flagged global, sorted by the GSI sort key `createdAt`. -/
def globalResourceList (s : Store) : List ResourceRec :=
  List.insertionSort (fun a b => a.createdAt ≤ b.createdAt)
    (s.resources.filter (fun r => r.isGlobal))

/-- One element of the `users` array built by `getResourceAccessList`;
fields that a branch does not set are `none`. -/
structure AccessEntry where
  userId : String
  accessType : String
  groupId : Option String
  user : UserRec
  sharedBy : Option String
  sharedAt : Option String
  permissions : Option (List String)
deriving DecidableEq

/-- The value returned by `getResourceAccessList`. -/
structure AccessList where
  resourceId : String
  accessType : String
  totalUsers : Nat
  users : List AccessEntry
deriving DecidableEq

/-- The entry pushed for a direct (user-type) sharing rule. -/
def directEntry (rule : ShareGrant) (u : UserRec) : AccessEntry :=
  ⟨rule.targetId, "direct", none, u, some rule.sharedBy, some rule.sharedAt,
    some rule.permissions⟩

/-- The entry pushed for a member reached through a group-type rule. -/
def groupMemberEntry (rule : ShareGrant) (m : MembershipRec) (u : UserRec) : AccessEntry :=
  ⟨m.userId, "group", some rule.targetId, u, some rule.sharedBy,
    some rule.sharedAt, some rule.permissions⟩

/-- The entry pushed for a user in the globally-shared branch. -/
def globalUserEntry (u : UserRec) : AccessEntry :=
  ⟨u.userId, "global", none, u, none, none, none⟩

/-- The inner loop of the group branch of `getResourceAccessList`: walk the
group's members, and for each member not already in the seen-set whose user
record still exists, add the member and push a group entry. -/
def procGroupMembers (s : Store) (rule : ShareGrant) :
    List MembershipRec → Finset String × List AccessEntry →
    Finset String × List AccessEntry
  | [], acc => acc
  | m :: ms, acc =>
    if m.userId ∈ acc.1 then procGroupMembers s rule ms acc
    else
      match getUser s m.userId with
      | some u =>
          procGroupMembers s rule ms
            (insert m.userId acc.1, acc.2 ++ [groupMemberEntry rule m u])
      | none => procGroupMembers s rule ms acc

/-- The main `for (const rule of sharingRules.data)` loop of
`getResourceAccessList`.  The user-type branch checks only that the target
user exists (it never consults the seen-set before pushing); the group-type
branch checks the seen-set per member; other share types are ignored. -/
def procRules (s : Store) :
    List ShareGrant → Finset String × List AccessEntry →
    Finset String × List AccessEntry
  | [], acc => acc
  | rule :: rs, acc =>
    match rule.shareType with
    | ShareType.user =>
      match getUser s rule.targetId with
      | some u =>
          procRules s rs (insert rule.targetId acc.1, acc.2 ++ [directEntry rule u])
      | none => procRules s rs acc
    | ShareType.group =>
        procRules s rs (procGroupMembers s rule (membersOfGroup s rule.targetId) acc)
    | ShareType.global => procRules s rs acc

/-- The `User.scan` branch of `getResourceAccessList` for global resources. -/
def globalScanAcc (s : Store) : Finset String × List AccessEntry :=
  s.users.foldl (fun acc u => (insert u.userId acc.1, acc.2 ++ [globalUserEntry u]))
    (∅, [])

/-- `accessService.getResourceAccessList` (the Forward Resolver). -/
def getResourceAccessList (s : Store) (resourceId : String) :
    Except String AccessList :=
  match getResource s resourceId with
  | none => Except.error "Failed to get resource access list: Resource not found"
  | some r =>
    if r.isGlobal then
      let st := globalScanAcc s
      Except.ok ⟨resourceId, "global", st.1.card, st.2⟩
    else
      let st := procRules s (grantsOfResource s resourceId) (∅, [])
      Except.ok ⟨resourceId, "specific", st.1.card, st.2⟩

/-- One element of the `resources` array built by `getUserResources`. -/
structure ResourceEntry where
  resource : ResourceRec
  accessType : String
  groupId : Option String
  sharedBy : Option String
  sharedAt : Option String
  permissions : List String
deriving DecidableEq

/-- The value returned by `getUserResources`. -/
structure ResourceList where
  userId : String
  totalResources : Nat
  resources : List ResourceEntry
deriving DecidableEq

/-- The entry pushed for a direct share in `getUserResources`. -/
def directResourceEntry (share : ShareGrant) (r : ResourceRec) : ResourceEntry :=
  ⟨r, "direct", none, some share.sharedBy, some share.sharedAt, share.permissions⟩

/-- The entry pushed for a group share in `getUserResources`. -/
def groupResourceEntry (share : ShareGrant) (r : ResourceRec) : ResourceEntry :=
  ⟨r, "group", some share.targetId, some share.sharedBy, some share.sharedAt,
    share.permissions⟩

/-- The entry pushed for a global resource in `getUserResources`. -/
def globalResourceEntry (r : ResourceRec) : ResourceEntry :=
  ⟨r, "global", none, none, none, ["read"]⟩

/-- The `// Process direct shares` loop of `getUserResources`: for each
sharing rule targeting the user, if the resource is unseen and still exists,
record it with `accessType: 'direct'` and the rule's provenance. -/
def procDirectShares (s : Store) :
    List ShareGrant → Finset String × List ResourceEntry →
    Finset String × List ResourceEntry
  | [], acc => acc
  | share :: rest, acc =>
    if share.resourceId ∈ acc.1 then procDirectShares s rest acc
    else
      match getResource s share.resourceId with
      | some r =>
          procDirectShares s rest
            (insert share.resourceId acc.1, acc.2 ++ [directResourceEntry share r])
      | none => procDirectShares s rest acc

/-- The `// Process group shares` loop of `getUserResources`. -/
def procGroupShares (s : Store) :
    List ShareGrant → Finset String × List ResourceEntry →
    Finset String × List ResourceEntry
  | [], acc => acc
  | share :: rest, acc =>
    if share.resourceId ∈ acc.1 then procGroupShares s rest acc
    else
      match getResource s share.resourceId with
      | some r =>
          procGroupShares s rest
            (insert share.resourceId acc.1, acc.2 ++ [groupResourceEntry share r])
      | none => procGroupShares s rest acc

/-- The `// Process global resources` loop of `getUserResources`: unseen
global resources get `accessType: 'global'`, `permissions: ['read']` and no
provenance fields. -/
def procGlobalResources :
    List ResourceRec → Finset String × List ResourceEntry →
    Finset String × List ResourceEntry
  | [], acc => acc
  | r :: rest, acc =>
    if r.resourceId ∈ acc.1 then procGlobalResources rest acc
    else
      procGlobalResources rest
        (insert r.resourceId acc.1, acc.2 ++ [globalResourceEntry r])

/-- `accessService.getUserResources` (the Reverse Resolver).  Direct shares
come from `byTarget(userId)`, group shares from `byTarget(groupId)`
concatenated over the user's memberships, global resources from the
`globalResources` index; the three lists are merged in that order over one
seen-set of resourceIds. -/
def getUserResources (s : Store) (userId : String) :
    Except String ResourceList :=
  match getUser s userId with
  | none => Except.error "Failed to get user resources: User not found"
  | some _ =>
    let userGroups := membershipsOfUser s userId
    let groupShares := (userGroups.map (fun m => grantsTargeting s m.groupId)).flatten
    let st1 := procDirectShares s (grantsTargeting s userId) (∅, [])
    let st2 := procGroupShares s groupShares st1
    let st3 := procGlobalResources (globalResourceList s) st2
    Except.ok ⟨userId, st3.1.card, st3.2⟩

/-- `Resource.update({resourceId}).set({isGlobal, updatedAt})`: rewrite the
matching resource row (absent rows are left alone in this embedding; the
service only issues the update after fetching the resource, except in
`unshareResource`, where an absent row has no flag to diverge). -/
def updateResourceGlobal (s : Store) (resourceId : String) (b : Bool)
    (now : String) : Store :=
  { s with resources := s.resources.map (fun r =>
      if r.resourceId == resourceId then { r with isGlobal := b, updatedAt := now }
      else r) }

/-- `ResourceSharing.get`-style point lookup by the full grant key. -/
def findGrant (s : Store) (resourceId : String) (ty : ShareType)
    (targetId : String) : Option ShareGrant :=
  s.grants.find? (fun g =>
    g.resourceId == resourceId && g.shareType == ty && g.targetId == targetId)

/-- `ResourceSharing.create(...).go()`: ElectroDB `create` is a conditional
put, so an existing `(resourceId, shareType, targetId)` key makes the call
fail (`ConditionalCheckFailedException`, message `The conditional request
failed`) and writes nothing; otherwise the grant is stored with `sharedAt`
defaulted to the current timestamp. -/
def createGrant (s : Store) (resourceId : String) (ty : ShareType)
    (targetId : String) (sharedBy : String) (permissions : List String)
    (now : String) : Except String ShareGrant × Store :=
  match findGrant s resourceId ty targetId with
  | some _ =>
      (Except.error "Failed to share resource: The conditional request failed", s)
  | none =>
      let g : ShareGrant := ⟨resourceId, ty, targetId, sharedBy, now, permissions⟩
      (Except.ok g, { s with grants := s.grants ++ [g] })

/-- `accessService.shareResource`.  Besides the result it returns the store
as left by the call, since the global-branch flag update precedes the grant
creation and survives a failed create. -/
def shareResource (s : Store) (resourceId : String) (shareType : ShareType)
    (targetId : String) (sharedBy : String) (permissions : List String)
    (now : String) : Except String ShareGrant × Store :=
  match getResource s resourceId with
  | none => (Except.error "Failed to share resource: Resource not found", s)
  | some _ =>
    match shareType with
    | ShareType.user =>
      match getUser s targetId with
      | none => (Except.error "Failed to share resource: Target user not found", s)
      | some _ => createGrant s resourceId ShareType.user targetId sharedBy permissions now
    | ShareType.group =>
      match getGroup s targetId with
      | none => (Except.error "Failed to share resource: Target group not found", s)
      | some _ => createGrant s resourceId ShareType.group targetId sharedBy permissions now
    | ShareType.global =>
      let s1 := updateResourceGlobal s resourceId true now
      createGrant s1 resourceId ShareType.global "global" sharedBy permissions now

/-- `accessService.unshareResource`: delete the grant with the given key
(a no-op when absent), and for `shareType = 'global'` also clear the
resource's `isGlobal` flag. -/
def unshareResource (s : Store) (resourceId : String) (shareType : ShareType)
    (targetId : String) (now : String) : Store :=
  let s1 := { s with grants := s.grants.filter (fun g =>
      !(g.resourceId == resourceId && g.shareType == shareType
        && g.targetId == targetId)) }
  match shareType with
  | ShareType.global => updateResourceGlobal s1 resourceId false now
  | _ => s1

/-- Specification-side description of the users a non-global resource's
grants can reach: existing users that are the target of a user-type grant
for the resource, together with existing users that are members of a group
targeted by a group-type grant for the resource. -/
def forwardReach (s : Store) (resourceId : String) : Finset String :=
  (s.users.map (fun u => u.userId)).toFinset.filter (fun x =>
    (∃ g ∈ s.grants, g.resourceId = resourceId ∧ g.shareType = ShareType.user ∧
      g.targetId = x) ∨
    (∃ g ∈ s.grants, g.resourceId = resourceId ∧ g.shareType = ShareType.group ∧
      ∃ m ∈ s.memberships, m.groupId = g.targetId ∧ m.userId = x))

/-- Invariant I1 of the specification: a resource's `isGlobal` flag is set
exactly when the sentinel-keyed global ShareGrant for it exists. -/
def globalInv (s : Store) : Prop :=
  ∀ r ∈ s.resources, (r.isGlobal = true ↔
    ∃ g ∈ s.grants, g.resourceId = r.resourceId ∧
      g.shareType = ShareType.global ∧ g.targetId = "global")

/-- DynamoDB key uniqueness for every table of the store. -/
def StoreKeysNodup (s : Store) : Prop :=
  (s.users.map (fun u => u.userId)).Nodup ∧
  (s.groups.map (fun g => g.groupId)).Nodup ∧
  (s.memberships.map (fun m => (m.userId, m.groupId))).Nodup ∧
  (s.resources.map (fun r => r.resourceId)).Nodup ∧
  (s.grants.map (fun g => (g.resourceId, g.shareType, g.targetId))).Nodup

/-- The store draws user ids and group ids from two disjoint id spaces `U`
and `G`, neither containing the sentinel `"global"`, and every grant's
`targetId` lies in the space matching its `shareType` (the data model's
typing of `targetId`, which also admits dangling targets). -/
def TypedStore (s : Store) (U G : List String) : Prop :=
  (∀ u ∈ s.users, u.userId ∈ U) ∧
  (∀ g ∈ s.groups, g.groupId ∈ G) ∧
  (∀ m ∈ s.memberships, m.userId ∈ U ∧ m.groupId ∈ G) ∧
  (∀ g ∈ s.grants,
    (g.shareType = ShareType.user → g.targetId ∈ U) ∧
    (g.shareType = ShareType.group → g.targetId ∈ G) ∧
    (g.shareType = ShareType.global → g.targetId = "global")) ∧
  (∀ x ∈ U, x ∉ G) ∧ "global" ∉ U ∧ "global" ∉ G

/-- The users reachable from the rules list `rs` in the non-global branch of
`getResourceAccessList`: targets of user-type rules whose user record exists,
and members of group-type rules whose user record exists. -/
def reachVia (s : Store) (rs : List ShareGrant) (x : String) : Prop :=
  ∃ rule ∈ rs,
    (rule.shareType = ShareType.user ∧ rule.targetId = x ∧
      (getUser s x).isSome = true) ∨
    (rule.shareType = ShareType.group ∧
      (∃ m ∈ membersOfGroup s rule.targetId, m.userId = x) ∧
      (getUser s x).isSome = true)

/-- The userIds occurring in a list of access entries, as a finite set. -/
def entryIds (es : List AccessEntry) : Finset String :=
  (es.map (fun e => e.userId)).toFinset

/-- The resourceIds occurring in a list of resource entries. -/
def resourceEntryIds (es : List ResourceEntry) : Finset String :=
  (es.map (fun e => e.resource.resourceId)).toFinset

/-- The value `getResourceAccessList` returns for a non-global resource. -/
def accessListOf (s : Store) (resourceId : String) : AccessList :=
  ⟨resourceId, "specific",
   (procRules s (grantsOfResource s resourceId) (∅, [])).1.card,
   (procRules s (grantsOfResource s resourceId) (∅, [])).2⟩

/-- The value `getUserResources` returns for an existing user. -/
def resourceListOf (s : Store) (userId : String) : ResourceList :=
  let userGroups := membershipsOfUser s userId
  let groupShares := (userGroups.map (fun m => grantsTargeting s m.groupId)).flatten
  let st1 := procDirectShares s (grantsTargeting s userId) (∅, [])
  let st2 := procGroupShares s groupShares st1
  let st3 := procGlobalResources (globalResourceList s) st2
  ⟨userId, st3.1.card, st3.2⟩

/-- The value `getResourceAccessList` returns for a globally shared
resource. -/
def globalAccessListOf (s : Store) (resourceId : String) : AccessList :=
  ⟨resourceId, "global", (globalScanAcc s).1.card, (globalScanAcc s).2⟩

/-! ### Small concrete stores used to evaluate the definitions -/

/-- A user record with placeholder profile fields. -/
def mkUser (i : String) : UserRec := ⟨i, i, i, "t0", "t0"⟩

/-- A group record with placeholder fields. -/
def mkGroup (i : String) : GroupRec := ⟨i, i, ""⟩

/-- A membership edge. -/
def mkMember (u g : String) : MembershipRec := ⟨u, g, "t0"⟩

/-- A resource record with the given global flag. -/
def mkResource (i : String) (b : Bool) : ResourceRec := ⟨i, i, "", "doc", "o1", b, "t0", "t0"⟩

/-- A grant with placeholder provenance and read permission. -/
def mkGrant (r : String) (ty : ShareType) (t : String) : ShareGrant :=
  ⟨r, ty, t, "s1", "t1", ["read"]⟩

/-- One user holding both a direct grant and a group grant to `r1`. -/
def cexC1Store : Store :=
  ⟨[mkUser "u1"], [mkGroup "g1"], [mkMember "u1" "g1"],
   [mkResource "r1" false],
   [mkGrant "r1" ShareType.user "u1", mkGrant "r1" ShareType.group "g1"]⟩

/-- Same shape as `cexC1Store`, on ids `u2/g2/r2`. -/
def cexC2Store : Store :=
  ⟨[mkUser "u2"], [mkGroup "g2"], [mkMember "u2" "g2"],
   [mkResource "r2" false],
   [mkGrant "r2" ShareType.user "u2", mkGrant "r2" ShareType.group "g2"]⟩

/-- A store whose `r1` already carries a direct grant for `u1`. -/
def cexC8Store : Store :=
  ⟨[mkUser "u1"], [], [], [mkResource "r1" false],
   [mkGrant "r1" ShareType.user "u1"]⟩

/-- A store with an existing grant whose provenance differs from a re-share. -/
def cexC9Store : Store :=
  ⟨[mkUser "u1"], [], [], [mkResource "r1" false],
   [⟨"r1", ShareType.user, "u1", "alice", "t0", ["read"]⟩]⟩

/-- A grant targeting group `g1`, which no longer exists, while the
membership edge `(u1, g1)` survived the group's deletion. -/
def cexC10Store : Store :=
  ⟨[mkUser "u1"], [], [mkMember "u1" "g1"], [mkResource "r1" false],
   [mkGrant "r1" ShareType.group "g1"]⟩

/-- An id-space collision: the string `x` names both a user and a group;
`u1` is a member of group `x`, and `r1` carries a *user*-type grant whose
target is `x`. -/
def cexC7Store : Store :=
  ⟨[mkUser "u1", mkUser "x"], [mkGroup "x"], [mkMember "u1" "x"],
   [mkResource "r1" false],
   [mkGrant "r1" ShareType.user "x"]⟩

/-- A store satisfying the global-flag invariant, used to instantiate the
mutator theorems. -/
def wfC3Store : Store :=
  ⟨[mkUser "u1"], [mkGroup "g1"], [], [mkResource "r1" false, mkResource "r2" true],
   [mkGrant "r2" ShareType.global "global"]⟩

/-- A globally shared resource `r2` alongside two users. -/
def wfC4Store : Store :=
  ⟨[mkUser "u1", mkUser "u2"], [], [], [mkResource "r2" true], []⟩

/-- Overlapping direct and group paths: `u1` directly and `g1 = {u1, u2}`. -/
def wfC5Store : Store :=
  ⟨[mkUser "u1", mkUser "u2"], [mkGroup "g1"],
   [mkMember "u1" "g1", mkMember "u2" "g1"],
   [mkResource "r1" false],
   [mkGrant "r1" ShareType.user "u1", mkGrant "r1" ShareType.group "g1"]⟩

/-- A user with direct, group and global paths, the group path overlapping
the direct one. -/
def wfC6Store : Store :=
  ⟨[mkUser "u1"], [mkGroup "g1"], [mkMember "u1" "g1"],
   [mkResource "r1" false, mkResource "r2" false, mkResource "r3" true],
   [mkGrant "r1" ShareType.user "u1", mkGrant "r1" ShareType.group "g1",
    mkGrant "r2" ShareType.group "g1"]⟩

/-- A typed store (disjoint user/group id spaces) for the symmetry theorem. -/
def wfC7Store : Store :=
  ⟨[mkUser "u1", mkUser "u2"], [mkGroup "g1"], [mkMember "u2" "g1"],
   [mkResource "r1" false, mkResource "r2" true],
   [mkGrant "r1" ShareType.group "g1", mkGrant "r1" ShareType.user "u1",
    mkGrant "r2" ShareType.global "global"]⟩

/-- A store with no grant keyed `(r1, user, u1)`, for the round trip. -/
def wfC8Store : Store :=
  ⟨[mkUser "u1", mkUser "u2"], [], [], [mkResource "r1" false],
   [mkGrant "r1" ShareType.user "u2"]⟩

/-! ## Store-query bridge lemmas -/

theorem mem_grantsOfResource {s : Store} {rid : String} {g : ShareGrant} :
    g ∈ grantsOfResource s rid ↔ g ∈ s.grants ∧ g.resourceId = rid := by
  unfold grantsOfResource
  simp only [List.mem_append, List.mem_insertionSort, List.mem_filter, beq_iff_eq]
  cases h : g.shareType <;> simp [h]

theorem mem_grantsTargeting {s : Store} {t : String} {g : ShareGrant} :
    g ∈ grantsTargeting s t ↔ g ∈ s.grants ∧ g.targetId = t := by
  unfold grantsTargeting
  simp [List.mem_insertionSort, List.mem_filter]

theorem mem_membershipsOfUser {s : Store} {uid : String} {m : MembershipRec} :
    m ∈ membershipsOfUser s uid ↔ m ∈ s.memberships ∧ m.userId = uid := by
  unfold membershipsOfUser
  simp [List.mem_insertionSort, List.mem_filter]

theorem mem_membersOfGroup {s : Store} {gid : String} {m : MembershipRec} :
    m ∈ membersOfGroup s gid ↔ m ∈ s.memberships ∧ m.groupId = gid := by
  unfold membersOfGroup
  simp [List.mem_insertionSort, List.mem_filter]

theorem mem_globalResourceList {s : Store} {r : ResourceRec} :
    r ∈ globalResourceList s ↔ r ∈ s.resources ∧ r.isGlobal = true := by
  unfold globalResourceList
  simp [List.mem_insertionSort, List.mem_filter]

theorem getUser_isSome_iff {s : Store} {x : String} :
    (getUser s x).isSome = true ↔ ∃ u ∈ s.users, u.userId = x := by
  unfold getUser
  rw [List.find?_isSome]
  simp

theorem getUser_eq_some_mem {s : Store} {x : String} {u : UserRec}
    (h : getUser s x = some u) : u ∈ s.users ∧ u.userId = x := by
  refine ⟨List.mem_of_find?_eq_some h, ?_⟩
  have := List.find?_some h
  simpa using this

theorem getResource_isSome_iff {s : Store} {x : String} :
    (getResource s x).isSome = true ↔ ∃ r ∈ s.resources, r.resourceId = x := by
  unfold getResource
  rw [List.find?_isSome]
  simp

theorem getResource_eq_some_mem {s : Store} {x : String} {r : ResourceRec}
    (h : getResource s x = some r) : r ∈ s.resources ∧ r.resourceId = x := by
  refine ⟨List.mem_of_find?_eq_some h, ?_⟩
  have := List.find?_some h
  simpa using this

/-! ## Accumulator lemmas for the forward resolver's loops -/

theorem entryIds_append_one (es : List AccessEntry) (e : AccessEntry) :
    entryIds (es ++ [e]) = insert e.userId (entryIds es) := by
  unfold entryIds
  simp [List.toFinset_append, Finset.union_comm, Finset.insert_eq]

theorem procGroupMembers_ids (s : Store) (rule : ShareGrant) :
    ∀ (ms : List MembershipRec) (acc : Finset String × List AccessEntry),
      acc.1 = entryIds acc.2 →
      (procGroupMembers s rule ms acc).1 = entryIds (procGroupMembers s rule ms acc).2
  | [], acc, h => h
  | m :: ms, acc, h => by
    simp only [procGroupMembers]
    by_cases hm : m.userId ∈ acc.1
    · rw [if_pos hm]
      exact procGroupMembers_ids s rule ms acc h
    · rw [if_neg hm]
      cases hu : getUser s m.userId with
      | none => exact procGroupMembers_ids s rule ms acc h
      | some u =>
        refine procGroupMembers_ids s rule ms _ ?_
        simp [entryIds_append_one, groupMemberEntry, ← h]

theorem procRules_ids (s : Store) :
    ∀ (rs : List ShareGrant) (acc : Finset String × List AccessEntry),
      acc.1 = entryIds acc.2 →
      (procRules s rs acc).1 = entryIds (procRules s rs acc).2
  | [], acc, h => h
  | rule :: rs, acc, h => by
    simp only [procRules]
    cases hty : rule.shareType with
    | user =>
      cases hu : getUser s rule.targetId with
      | none => exact procRules_ids s rs acc h
      | some u =>
        refine procRules_ids s rs _ ?_
        simp [entryIds_append_one, directEntry, ← h]
    | group => exact procRules_ids s rs _ (procGroupMembers_ids s rule _ acc h)
    | global => exact procRules_ids s rs acc h

theorem mem_procGroupMembers_fst (s : Store) (rule : ShareGrant) (x : String) :
    ∀ (ms : List MembershipRec) (acc : Finset String × List AccessEntry),
      (x ∈ (procGroupMembers s rule ms acc).1 ↔
        x ∈ acc.1 ∨ ∃ m ∈ ms, m.userId = x ∧ (getUser s x).isSome = true)
  | [], acc => by simp [procGroupMembers]
  | m :: ms, acc => by
    simp only [procGroupMembers]
    by_cases hm : m.userId ∈ acc.1
    · rw [if_pos hm, mem_procGroupMembers_fst s rule x ms acc]
      constructor
      · rintro (h | ⟨m', hm', hx, hs⟩)
        · exact Or.inl h
        · exact Or.inr ⟨m', List.mem_cons_of_mem _ hm', hx, hs⟩
      · rintro (h | ⟨m', hm', hx, hs⟩)
        · exact Or.inl h
        · rcases List.mem_cons.mp hm' with rfl | h'
          · exact Or.inl (hx ▸ hm)
          · exact Or.inr ⟨m', h', hx, hs⟩
    · rw [if_neg hm]
      cases hu : getUser s m.userId with
      | none =>
        rw [mem_procGroupMembers_fst s rule x ms acc]
        constructor
        · rintro (h | ⟨m', hm', hx, hs⟩)
          · exact Or.inl h
          · exact Or.inr ⟨m', List.mem_cons_of_mem _ hm', hx, hs⟩
        · rintro (h | ⟨m', hm', hx, hs⟩)
          · exact Or.inl h
          · rcases List.mem_cons.mp hm' with rfl | h'
            · rw [← hx, hu] at hs
              simp at hs
            · exact Or.inr ⟨m', h', hx, hs⟩
      | some u =>
        rw [mem_procGroupMembers_fst s rule x ms _]
        simp only [Finset.mem_insert]
        constructor
        · rintro ((rfl | h) | ⟨m', hm', hx, hs⟩)
          · refine Or.inr ⟨m, List.mem_cons_self _ _, rfl, ?_⟩
            rw [hu]
            rfl
          · exact Or.inl h
          · exact Or.inr ⟨m', List.mem_cons_of_mem _ hm', hx, hs⟩
        · rintro (h | ⟨m', hm', hx, hs⟩)
          · exact Or.inl (Or.inr h)
          · rcases List.mem_cons.mp hm' with rfl | h'
            · exact Or.inl (Or.inl hx.symm)
            · exact Or.inr ⟨m', h', hx, hs⟩

theorem mem_procRules_fst (s : Store) (x : String) :
    ∀ (rs : List ShareGrant) (acc : Finset String × List AccessEntry),
      (x ∈ (procRules s rs acc).1 ↔ x ∈ acc.1 ∨ reachVia s rs x)
  | [], acc => by simp [procRules, reachVia]
  | rule :: rs, acc => by
    simp only [procRules]
    cases hty : rule.shareType with
    | user =>
      cases hu : getUser s rule.targetId with
      | none =>
        rw [mem_procRules_fst s x rs acc]
        unfold reachVia
        constructor
        · rintro (h | ⟨r', hr', hcase⟩)
          · exact Or.inl h
          · exact Or.inr ⟨r', List.mem_cons_of_mem _ hr', hcase⟩
        · rintro (h | ⟨r', hr', hcase⟩)
          · exact Or.inl h
          · rcases List.mem_cons.mp hr' with rfl | h'
            · rcases hcase with ⟨_, hx, hs⟩ | ⟨hg, _, _⟩
              · rw [← hx, hu] at hs
                simp at hs
              · rw [hty] at hg
                cases hg
            · exact Or.inr ⟨r', h', hcase⟩
      | some u =>
        rw [mem_procRules_fst s x rs _]
        simp only [Finset.mem_insert]
        unfold reachVia
        constructor
        · rintro ((rfl | h) | ⟨r', hr', hcase⟩)
          · refine Or.inr ⟨rule, List.mem_cons_self _ _, Or.inl ⟨hty, rfl, ?_⟩⟩
            rw [hu]
            rfl
          · exact Or.inl h
          · exact Or.inr ⟨r', List.mem_cons_of_mem _ hr', hcase⟩
        · rintro (h | ⟨r', hr', hcase⟩)
          · exact Or.inl (Or.inr h)
          · rcases List.mem_cons.mp hr' with rfl | h'
            · rcases hcase with ⟨_, hx, _⟩ | ⟨hg, _, _⟩
              · exact Or.inl (Or.inl hx.symm)
              · rw [hty] at hg
                cases hg
            · exact Or.inr ⟨r', h', hcase⟩
    | group =>
      rw [mem_procRules_fst s x rs _, mem_procGroupMembers_fst s rule x _ acc]
      unfold reachVia
      constructor
      · rintro ((h | ⟨m, hm, hx, hs⟩) | ⟨r', hr', hcase⟩)
        · exact Or.inl h
        · exact Or.inr ⟨rule, List.mem_cons_self _ _, Or.inr ⟨hty, ⟨m, hm, hx⟩, hs⟩⟩
        · exact Or.inr ⟨r', List.mem_cons_of_mem _ hr', hcase⟩
      · rintro (h | ⟨r', hr', hcase⟩)
        · exact Or.inl (Or.inl h)
        · rcases List.mem_cons.mp hr' with rfl | h'
          · rcases hcase with ⟨hg, _, _⟩ | ⟨_, ⟨m, hm, hx⟩, hs⟩
            · rw [hty] at hg
              cases hg
            · exact Or.inl (Or.inr ⟨m, hm, hx, hs⟩)
          · exact Or.inr ⟨r', h', hcase⟩
    | global =>
      rw [mem_procRules_fst s x rs acc]
      unfold reachVia
      constructor
      · rintro (h | ⟨r', hr', hcase⟩)
        · exact Or.inl h
        · exact Or.inr ⟨r', List.mem_cons_of_mem _ hr', hcase⟩
      · rintro (h | ⟨r', hr', hcase⟩)
        · exact Or.inl h
        · rcases List.mem_cons.mp hr' with rfl | h'
          · rcases hcase with ⟨hg, _, _⟩ | ⟨hg, _, _⟩ <;> rw [hty] at hg <;> cases hg
          · exact Or.inr ⟨r', h', hcase⟩

theorem reachVia_grantsOfResource (s : Store) (rid x : String) :
    reachVia s (grantsOfResource s rid) x ↔ x ∈ forwardReach s rid := by
  unfold reachVia forwardReach
  simp only [Finset.mem_filter, List.mem_toFinset, List.mem_map]
  constructor
  · rintro ⟨rule, hrule, hcase⟩
    have hmem := mem_grantsOfResource.mp hrule
    rcases hcase with ⟨hty, hx, hs⟩ | ⟨hty, ⟨m, hm, hx⟩, hs⟩
    · rcases getUser_isSome_iff.mp hs with ⟨u, hu, hux⟩
      exact ⟨⟨u, hu, hux⟩, Or.inl ⟨rule, hmem.1, hmem.2, hty, hx⟩⟩
    · have hm' := mem_membersOfGroup.mp hm
      rcases getUser_isSome_iff.mp hs with ⟨u, hu, hux⟩
      exact ⟨⟨u, hu, hux⟩,
        Or.inr ⟨rule, hmem.1, hmem.2, hty, m, hm'.1, hm'.2, hx⟩⟩
  · rintro ⟨⟨u, hu, hux⟩, hpath⟩
    have hsome : (getUser s x).isSome = true := getUser_isSome_iff.mpr ⟨u, hu, hux⟩
    rcases hpath with ⟨g, hg, hrid, hty, htx⟩ | ⟨g, hg, hrid, hty, m, hmm, hgid, hmu⟩
    · exact ⟨g, mem_grantsOfResource.mpr ⟨hg, hrid⟩, Or.inl ⟨hty, htx, hsome⟩⟩
    · exact ⟨g, mem_grantsOfResource.mpr ⟨hg, hrid⟩,
        Or.inr ⟨hty, ⟨m, mem_membersOfGroup.mpr ⟨hmm, hgid⟩, hmu⟩, hsome⟩⟩

theorem procRules_start_fst (s : Store) (rid : String) :
    (procRules s (grantsOfResource s rid) (∅, [])).1 = forwardReach s rid := by
  apply Finset.ext
  intro x
  rw [mem_procRules_fst s x (grantsOfResource s rid) (∅, [])]
  simp [reachVia_grantsOfResource]

/-- Closed form of the `User.scan` fold in the global branch. -/
theorem globalScanAcc_eq (s : Store) :
    globalScanAcc s =
      ((s.users.map (fun u => u.userId)).toFinset, s.users.map globalUserEntry) := by
  unfold globalScanAcc
  suffices h : ∀ (l : List UserRec) (acc : Finset String × List AccessEntry),
      l.foldl (fun acc u => (insert u.userId acc.1, acc.2 ++ [globalUserEntry u])) acc =
        (acc.1 ∪ (l.map (fun u => u.userId)).toFinset, acc.2 ++ l.map globalUserEntry) by
    rw [h s.users (∅, [])]
    simp
  intro l
  induction l with
  | nil => intro acc; simp
  | cons u l ih =>
    intro acc
    rw [List.foldl_cons, ih]
    ext x
    · simp only [Finset.mem_union, Finset.mem_insert, List.mem_toFinset, List.mem_map,
        List.map_cons, List.toFinset_cons]
      tauto
    · simp

/-! ## Entry-list structure of the loops -/

theorem procGroupMembers_acc (s : Store) (rule : ShareGrant) :
    ∀ (ms : List MembershipRec) (acc : Finset String × List AccessEntry),
      procGroupMembers s rule ms acc =
        ((procGroupMembers s rule ms (acc.1, [])).1,
         acc.2 ++ (procGroupMembers s rule ms (acc.1, [])).2)
  | [], acc => by simp [procGroupMembers]
  | m :: ms, acc => by
    simp only [procGroupMembers]
    by_cases hm : m.userId ∈ acc.1
    · simp only [if_pos hm]
      exact procGroupMembers_acc s rule ms acc
    · simp only [if_neg hm]
      cases hu : getUser s m.userId with
      | none => exact procGroupMembers_acc s rule ms acc
      | some u =>
        dsimp only
        rw [procGroupMembers_acc s rule ms
              (insert m.userId acc.1, acc.2 ++ [groupMemberEntry rule m u]),
            procGroupMembers_acc s rule ms
              (insert m.userId acc.1, [] ++ [groupMemberEntry rule m u])]
        simp

theorem procRules_acc (s : Store) :
    ∀ (rs : List ShareGrant) (acc : Finset String × List AccessEntry),
      procRules s rs acc =
        ((procRules s rs (acc.1, [])).1, acc.2 ++ (procRules s rs (acc.1, [])).2)
  | [], acc => by simp [procRules]
  | rule :: rs, acc => by
    simp only [procRules]
    cases hty : rule.shareType with
    | user =>
      cases hu : getUser s rule.targetId with
      | none => exact procRules_acc s rs acc
      | some u =>
        dsimp only
        rw [procRules_acc s rs (insert rule.targetId acc.1, acc.2 ++ [directEntry rule u]),
            procRules_acc s rs (insert rule.targetId acc.1, [] ++ [directEntry rule u])]
        simp
    | group =>
      dsimp only
      rw [procRules_acc s rs (procGroupMembers s rule (membersOfGroup s rule.targetId) acc),
          procRules_acc s rs (procGroupMembers s rule (membersOfGroup s rule.targetId) (acc.1, [])),
          procGroupMembers_acc s rule (membersOfGroup s rule.targetId) acc]
      simp
    | global => exact procRules_acc s rs acc

theorem procRules_append (s : Store) :
    ∀ (l1 l2 : List ShareGrant) (acc : Finset String × List AccessEntry),
      procRules s (l1 ++ l2) acc = procRules s l2 (procRules s l1 acc)
  | [], l2, acc => by simp [procRules]
  | rule :: l1, l2, acc => by
    simp only [List.cons_append, procRules]
    cases hty : rule.shareType with
    | user =>
      cases hu : getUser s rule.targetId with
      | none => exact procRules_append s l1 l2 acc
      | some u => exact procRules_append s l1 l2 _
    | group => exact procRules_append s l1 l2 _
    | global => exact procRules_append s l1 l2 acc

theorem procRules_all_global (s : Store) :
    ∀ (rs : List ShareGrant) (acc : Finset String × List AccessEntry),
      (∀ r ∈ rs, r.shareType = ShareType.global) → procRules s rs acc = acc
  | [], acc, _ => rfl
  | rule :: rs, acc, h => by
    simp only [procRules]
    rw [h rule (List.mem_cons_self _ _)]
    exact procRules_all_global s rs acc (fun r hr => h r (List.mem_cons_of_mem _ hr))

theorem procGroupMembers_snd_shape (s : Store) (rule : ShareGrant) :
    ∀ (ms : List MembershipRec) (acc : Finset String × List AccessEntry),
      ∀ e ∈ (procGroupMembers s rule ms acc).2, e ∈ acc.2 ∨ e.accessType = "group"
  | [], acc, e, he => Or.inl he
  | m :: ms, acc, e, he => by
    simp only [procGroupMembers] at he
    by_cases hm : m.userId ∈ acc.1
    · rw [if_pos hm] at he
      exact procGroupMembers_snd_shape s rule ms acc e he
    · rw [if_neg hm] at he
      cases hu : getUser s m.userId with
      | none =>
        rw [hu] at he
        exact procGroupMembers_snd_shape s rule ms acc e he
      | some u =>
        rw [hu] at he
        rcases procGroupMembers_snd_shape s rule ms _ e he with h | h
        · rcases List.mem_append.mp h with h' | h'
          · exact Or.inl h'
          · refine Or.inr ?_
            rcases List.mem_singleton.mp h' with rfl
            rfl
        · exact Or.inr h

theorem procRules_snd_shape_group (s : Store) :
    ∀ (rs : List ShareGrant) (acc : Finset String × List AccessEntry),
      (∀ r ∈ rs, r.shareType = ShareType.group) →
      ∀ e ∈ (procRules s rs acc).2, e ∈ acc.2 ∨ e.accessType = "group"
  | [], acc, _, e, he => Or.inl he
  | rule :: rs, acc, h, e, he => by
    have hty := h rule (List.mem_cons_self _ _)
    simp only [procRules, hty] at he
    rcases procRules_snd_shape_group s rs _
        (fun r hr => h r (List.mem_cons_of_mem _ hr)) e he with h' | h'
    · exact procGroupMembers_snd_shape s rule _ acc e h'
    · exact Or.inr h'

/-- For a block of user-type rules the loop appends exactly one `direct`
entry per rule whose target user record exists, with no seen-set check. -/
theorem procRules_all_user (s : Store) :
    ∀ (rs : List ShareGrant) (acc : Finset String × List AccessEntry),
      (∀ r ∈ rs, r.shareType = ShareType.user) →
      (procRules s rs acc).2 =
        acc.2 ++ rs.filterMap (fun r => (getUser s r.targetId).map (fun u => directEntry r u))
  | [], acc, _ => by simp [procRules]
  | rule :: rs, acc, h => by
    have hty := h rule (List.mem_cons_self _ _)
    simp only [procRules, hty, List.filterMap_cons]
    cases hu : getUser s rule.targetId with
    | none =>
      simp only [Option.map_none']
      exact procRules_all_user s rs acc (fun r hr => h r (List.mem_cons_of_mem _ hr))
    | some u =>
      simp only [Option.map_some']
      rw [procRules_all_user s rs _ (fun r hr => h r (List.mem_cons_of_mem _ hr))]
      simp

/-- The global-type block that the sorted partition of a resource's grants
begins with. -/
def globalRulesOf (s : Store) (resourceId : String) : List ShareGrant :=
  List.insertionSort (fun a b => a.targetId ≤ b.targetId)
    ((s.grants.filter (fun g => g.resourceId == resourceId)).filter
      (fun g => g.shareType == ShareType.global))

/-- The group-type block of the sorted partition of a resource's grants. -/
def groupRulesOf (s : Store) (resourceId : String) : List ShareGrant :=
  List.insertionSort (fun a b => a.targetId ≤ b.targetId)
    ((s.grants.filter (fun g => g.resourceId == resourceId)).filter
      (fun g => g.shareType == ShareType.group))

/-- The user-type block of the sorted partition of a resource's grants. -/
def userRulesOf (s : Store) (resourceId : String) : List ShareGrant :=
  List.insertionSort (fun a b => a.targetId ≤ b.targetId)
    ((s.grants.filter (fun g => g.resourceId == resourceId)).filter
      (fun g => g.shareType == ShareType.user))

theorem grantsOfResource_eq_blocks (s : Store) (rid : String) :
    grantsOfResource s rid =
      globalRulesOf s rid ++ groupRulesOf s rid ++ userRulesOf s rid := rfl

theorem mem_globalRulesOf {s : Store} {rid : String} {g : ShareGrant} :
    g ∈ globalRulesOf s rid ↔
      g ∈ s.grants ∧ g.resourceId = rid ∧ g.shareType = ShareType.global := by
  unfold globalRulesOf
  simp only [List.mem_insertionSort, List.mem_filter, beq_iff_eq]
  tauto

theorem mem_groupRulesOf {s : Store} {rid : String} {g : ShareGrant} :
    g ∈ groupRulesOf s rid ↔
      g ∈ s.grants ∧ g.resourceId = rid ∧ g.shareType = ShareType.group := by
  unfold groupRulesOf
  simp only [List.mem_insertionSort, List.mem_filter, beq_iff_eq]
  tauto

theorem mem_userRulesOf {s : Store} {rid : String} {g : ShareGrant} :
    g ∈ userRulesOf s rid ↔
      g ∈ s.grants ∧ g.resourceId = rid ∧ g.shareType = ShareType.user := by
  unfold userRulesOf
  simp only [List.mem_insertionSort, List.mem_filter, beq_iff_eq]
  tauto

/-- Key uniqueness specializes to: within one resource the user-type rules
have pairwise distinct target ids. -/
theorem nodup_userRules_targetIds (s : Store) (rid : String)
    (hnd : (s.grants.map (fun g => (g.resourceId, g.shareType, g.targetId))).Nodup) :
    ((userRulesOf s rid).map (fun g => g.targetId)).Nodup := by
  have hperm : List.Perm (userRulesOf s rid)
      ((s.grants.filter (fun g => g.resourceId == rid)).filter
        (fun g => g.shareType == ShareType.user)) :=
    List.perm_insertionSort _ _
  rw [List.Perm.nodup_iff (hperm.map (fun g => g.targetId))]
  have hsub : ((s.grants.filter (fun g => g.resourceId == rid)).filter
      (fun g => g.shareType == ShareType.user)).Sublist s.grants :=
    ((s.grants.filter (fun g => g.resourceId == rid)).filter_sublist.trans
      (s.grants.filter_sublist))
  have hkeys : (((s.grants.filter (fun g => g.resourceId == rid)).filter
      (fun g => g.shareType == ShareType.user)).map
        (fun g => (g.resourceId, g.shareType, g.targetId))).Nodup :=
    (hsub.map _).nodup hnd
  have hshape : ∀ g ∈ (s.grants.filter (fun g => g.resourceId == rid)).filter
      (fun g => g.shareType == ShareType.user),
      g.resourceId = rid ∧ g.shareType = ShareType.user := by
    intro g hg
    simp only [List.mem_filter, beq_iff_eq] at hg
    exact ⟨hg.1.2, hg.2⟩
  generalize hL : (s.grants.filter (fun g => g.resourceId == rid)).filter
      (fun g => g.shareType == ShareType.user) = L at hkeys hshape
  clear hL hsub hperm hnd
  induction L with
  | nil => simp
  | cons g L ih =>
    simp only [List.map_cons, List.nodup_cons] at hkeys ⊢
    refine ⟨?_, ih hkeys.2 (fun g' hg' => hshape g' (List.mem_cons_of_mem _ hg'))⟩
    intro hmem
    rcases List.mem_map.mp hmem with ⟨g', hg', htid⟩
    apply hkeys.1
    refine List.mem_map.mpr ⟨g', hg', ?_⟩
    have h1 := hshape g (List.mem_cons_self _ _)
    have h2 := hshape g' (List.mem_cons_of_mem _ hg')
    rw [h1.1, h1.2, h2.1, h2.2, htid]

/-! ## Tracking the entries of one user through the loops -/

theorem procGroupMembers_filter_already (s : Store) (rule : ShareGrant) (u : String) :
    ∀ (ms : List MembershipRec) (acc : Finset String × List AccessEntry),
      u ∈ acc.1 →
      (procGroupMembers s rule ms acc).2.filter (fun e => e.userId == u) =
        acc.2.filter (fun e => e.userId == u)
  | [], acc, _ => rfl
  | m :: ms, acc, hu => by
    simp only [procGroupMembers]
    by_cases hm : m.userId ∈ acc.1
    · simp only [if_pos hm]
      exact procGroupMembers_filter_already s rule u ms acc hu
    · simp only [if_neg hm]
      cases hg : getUser s m.userId with
      | none => exact procGroupMembers_filter_already s rule u ms acc hu
      | some ur =>
        dsimp only
        rw [procGroupMembers_filter_already s rule u ms
            (insert m.userId acc.1, acc.2 ++ [groupMemberEntry rule m ur])
            (Finset.mem_insert_of_mem hu)]
        have hne : m.userId ≠ u := fun h => hm (h ▸ hu)
        simp [groupMemberEntry, List.filter_append, hne]

theorem procGroupMembers_filter_notin (s : Store) (rule : ShareGrant) (u : String) :
    ∀ (ms : List MembershipRec) (acc : Finset String × List AccessEntry),
      u ∉ (procGroupMembers s rule ms acc).1 →
      (procGroupMembers s rule ms acc).2.filter (fun e => e.userId == u) =
        acc.2.filter (fun e => e.userId == u)
  | [], acc, _ => rfl
  | m :: ms, acc, hu => by
    simp only [procGroupMembers] at hu ⊢
    by_cases hm : m.userId ∈ acc.1
    · simp only [if_pos hm] at hu ⊢
      exact procGroupMembers_filter_notin s rule u ms acc hu
    · simp only [if_neg hm] at hu ⊢
      cases hg : getUser s m.userId with
      | none =>
        rw [hg] at hu
        exact procGroupMembers_filter_notin s rule u ms acc hu
      | some ur =>
        rw [hg] at hu
        dsimp only at hu ⊢
        rw [procGroupMembers_filter_notin s rule u ms
            (insert m.userId acc.1, acc.2 ++ [groupMemberEntry rule m ur]) hu]
        have hne : m.userId ≠ u := by
          intro h
          apply hu
          rw [mem_procGroupMembers_fst]
          exact Or.inl (by rw [← h]; exact Finset.mem_insert_self _ _)
        simp [groupMemberEntry, List.filter_append, hne]

theorem procGroupMembers_filter_add (s : Store) (rule : ShareGrant) (u : String) :
    ∀ (ms : List MembershipRec) (acc : Finset String × List AccessEntry),
      u ∉ acc.1 → u ∈ (procGroupMembers s rule ms acc).1 →
      ∃ e : AccessEntry, e.accessType = "group" ∧ e.userId = u ∧
        (procGroupMembers s rule ms acc).2.filter (fun e' => e'.userId == u) =
          acc.2.filter (fun e' => e'.userId == u) ++ [e]
  | [], acc, hno, hyes => absurd hyes hno
  | m :: ms, acc, hno, hyes => by
    simp only [procGroupMembers] at hyes ⊢
    by_cases hm : m.userId ∈ acc.1
    · simp only [if_pos hm] at hyes ⊢
      exact procGroupMembers_filter_add s rule u ms acc hno hyes
    · simp only [if_neg hm] at hyes ⊢
      cases hg : getUser s m.userId with
      | none =>
        rw [hg] at hyes
        exact procGroupMembers_filter_add s rule u ms acc hno hyes
      | some ur =>
        rw [hg] at hyes
        dsimp only at hyes ⊢
        by_cases hmu : m.userId = u
        · refine ⟨groupMemberEntry rule m ur, rfl, hmu, ?_⟩
          rw [procGroupMembers_filter_already s rule u ms
              (insert m.userId acc.1, acc.2 ++ [groupMemberEntry rule m ur])
              (hmu ▸ Finset.mem_insert_self m.userId acc.1)]
          simp [groupMemberEntry, List.filter_append, hmu]
        · have hno' : u ∉ insert m.userId acc.1 := by
            simp only [Finset.mem_insert]
            rintro (rfl | h)
            · exact hmu rfl
            · exact hno h
          rcases procGroupMembers_filter_add s rule u ms
              (insert m.userId acc.1, acc.2 ++ [groupMemberEntry rule m ur])
              hno' hyes with ⟨e, he1, he2, he3⟩
          refine ⟨e, he1, he2, ?_⟩
          rw [he3]
          simp [groupMemberEntry, List.filter_append, hmu]

theorem procRules_group_filter_already (s : Store) (u : String) :
    ∀ (rs : List ShareGrant) (acc : Finset String × List AccessEntry),
      (∀ r ∈ rs, r.shareType = ShareType.group) → u ∈ acc.1 →
      (procRules s rs acc).2.filter (fun e => e.userId == u) =
        acc.2.filter (fun e => e.userId == u)
  | [], acc, _, _ => rfl
  | rule :: rs, acc, hall, hu => by
    have hty := hall rule (List.mem_cons_self _ _)
    simp only [procRules, hty]
    have hu' : u ∈ (procGroupMembers s rule (membersOfGroup s rule.targetId) acc).1 := by
      rw [mem_procGroupMembers_fst]
      exact Or.inl hu
    rw [procRules_group_filter_already s u rs _
        (fun r hr => hall r (List.mem_cons_of_mem _ hr)) hu']
    exact procGroupMembers_filter_already s rule u _ acc hu

theorem procRules_group_filter_notin (s : Store) (u : String) :
    ∀ (rs : List ShareGrant) (acc : Finset String × List AccessEntry),
      (∀ r ∈ rs, r.shareType = ShareType.group) →
      u ∉ (procRules s rs acc).1 →
      (procRules s rs acc).2.filter (fun e => e.userId == u) =
        acc.2.filter (fun e => e.userId == u)
  | [], acc, _, _ => rfl
  | rule :: rs, acc, hall, hu => by
    have hty := hall rule (List.mem_cons_self _ _)
    simp only [procRules, hty] at hu ⊢
    have hu2 : u ∉ (procGroupMembers s rule (membersOfGroup s rule.targetId) acc).1 := by
      intro h
      apply hu
      rw [mem_procRules_fst]
      exact Or.inl h
    rw [procRules_group_filter_notin s u rs _
        (fun r hr => hall r (List.mem_cons_of_mem _ hr)) hu]
    exact procGroupMembers_filter_notin s rule u _ acc hu2

theorem procRules_group_filter_add (s : Store) (u : String) :
    ∀ (rs : List ShareGrant) (acc : Finset String × List AccessEntry),
      (∀ r ∈ rs, r.shareType = ShareType.group) →
      u ∉ acc.1 → u ∈ (procRules s rs acc).1 →
      ∃ e : AccessEntry, e.accessType = "group" ∧ e.userId = u ∧
        (procRules s rs acc).2.filter (fun e' => e'.userId == u) =
          acc.2.filter (fun e' => e'.userId == u) ++ [e]
  | [], acc, _, hno, hyes => absurd hyes hno
  | rule :: rs, acc, hall, hno, hyes => by
    have hty := hall rule (List.mem_cons_self _ _)
    simp only [procRules, hty] at hyes ⊢
    by_cases hmid : u ∈ (procGroupMembers s rule (membersOfGroup s rule.targetId) acc).1
    · rcases procGroupMembers_filter_add s rule u _ acc hno hmid with ⟨e, he1, he2, he3⟩
      refine ⟨e, he1, he2, ?_⟩
      rw [procRules_group_filter_already s u rs _
          (fun r hr => hall r (List.mem_cons_of_mem _ hr)) hmid, he3]
    · rcases procRules_group_filter_add s u rs _
          (fun r hr => hall r (List.mem_cons_of_mem _ hr)) hmid hyes with ⟨e, he1, he2, he3⟩
      refine ⟨e, he1, he2, ?_⟩
      rw [he3, procGroupMembers_filter_notin s rule u _ acc hmid]

theorem filter_user_entries_none (s : Store) (u : String) :
    ∀ (rules : List ShareGrant), (∀ r ∈ rules, r.targetId ≠ u) →
      (rules.filterMap
        (fun r => (getUser s r.targetId).map (fun x => directEntry r x))).filter
          (fun e => e.userId == u) = []
  | [], _ => rfl
  | rule :: rules, h => by
    simp only [List.filterMap_cons]
    cases hg : getUser s rule.targetId with
    | none =>
      exact filter_user_entries_none s u rules
        (fun r hr => h r (List.mem_cons_of_mem _ hr))
    | some x =>
      simp only [Option.map_some', List.filter_cons]
      have hne : rule.targetId ≠ u := h rule (List.mem_cons_self _ _)
      simp only [directEntry, hne, beq_iff_eq, if_neg hne]
      exact filter_user_entries_none s u rules
        (fun r hr => h r (List.mem_cons_of_mem _ hr))

theorem filter_user_entries_unique (s : Store) (u : String) (uu : UserRec)
    (hu : getUser s u = some uu) :
    ∀ (rules : List ShareGrant),
      ((rules.map (fun r => r.targetId)).Nodup) →
      ∀ rule0 ∈ rules, rule0.targetId = u →
      (rules.filterMap
        (fun r => (getUser s r.targetId).map (fun x => directEntry r x))).filter
          (fun e => e.userId == u) = [directEntry rule0 uu]
  | [], _, rule0, h0, _ => absurd h0 (List.not_mem_nil rule0)
  | rule :: rules, hnd, rule0, h0, htid => by
    simp only [List.map_cons, List.nodup_cons] at hnd
    rcases List.mem_cons.mp h0 with rfl | h0'
    · have hpos : ((directEntry rule0 uu).userId == u) = true := by
        simp [directEntry, htid]
      simp only [List.filterMap_cons, htid, hu, Option.map_some']
      rw [List.filter_cons, if_pos hpos, filter_user_entries_none s u rules]
      intro r hr hru
      exact hnd.1 (List.mem_map.mpr ⟨r, hr, hru.trans htid.symm⟩)
    · have hne : rule.targetId ≠ u := by
        intro h
        exact hnd.1 (List.mem_map.mpr ⟨rule0, h0', htid.trans h.symm⟩)
      simp only [List.filterMap_cons]
      cases hg : getUser s rule.targetId with
      | none => exact filter_user_entries_unique s u uu hu rules hnd.2 rule0 h0' htid
      | some x =>
        simp only [Option.map_some', List.filter_cons, directEntry, beq_iff_eq,
          if_neg hne]
        exact filter_user_entries_unique s u uu hu rules hnd.2 rule0 h0' htid

theorem getResourceAccessList_specific (s : Store) (rid : String) (r : ResourceRec)
    (hr : getResource s rid = some r) (hng : r.isGlobal = false) :
    getResourceAccessList s rid = Except.ok ⟨rid, "specific",
      (procRules s (grantsOfResource s rid) (∅, [])).1.card,
      (procRules s (grantsOfResource s rid) (∅, [])).2⟩ := by
  unfold getResourceAccessList
  rw [hr]
  simp [hng]

theorem getResourceAccessList_global (s : Store) (rid : String) (r : ResourceRec)
    (hr : getResource s rid = some r) (hg : r.isGlobal = true) :
    getResourceAccessList s rid = Except.ok ⟨rid, "global",
      (globalScanAcc s).1.card, (globalScanAcc s).2⟩ := by
  unfold getResourceAccessList
  rw [hr]
  simp [hg]

/-- C1 (amended).  For a non-global resource, a user `u` who holds both
a direct (user-type) grant and a group-type grant (via membership in a
granted group) appears **twice** in the `users` array returned by
`getResourceAccessList`: once with `accessType = 'group'` and then once with
`accessType = 'direct'`, in that order.  The store returns a resource's
grants sorted by `(shareType, targetId)`, whose encoding puts group-type
grants before user-type grants, and the user-type branch pushes its entry
without consulting the seen-set; the seen-set only dedupes `totalUsers`. -/
theorem C1_dedup_amended (s : Store) (rid u : String) (r : ResourceRec)
    (uu : UserRec)
    (hnd : (s.grants.map (fun g => (g.resourceId, g.shareType, g.targetId))).Nodup)
    (hr : getResource s rid = some r) (hng : r.isGlobal = false)
    (hu : getUser s u = some uu)
    (gd : ShareGrant) (hgd : gd ∈ s.grants) (hgd1 : gd.resourceId = rid)
    (hgd2 : gd.shareType = ShareType.user) (hgd3 : gd.targetId = u)
    (gg : ShareGrant) (hgg : gg ∈ s.grants) (hgg1 : gg.resourceId = rid)
    (hgg2 : gg.shareType = ShareType.group)
    (m : MembershipRec) (hm : m ∈ s.memberships) (hm1 : m.groupId = gg.targetId)
    (hm2 : m.userId = u)
    (al : AccessList) (hal : getResourceAccessList s rid = Except.ok al) :
    (al.users.filter (fun e => e.userId == u)).map (fun e => e.accessType) =
      ["group", "direct"] := by
  rw [getResourceAccessList_specific s rid r hr hng] at hal
  have hal' : al.users = (procRules s (grantsOfResource s rid) (∅, [])).2 := by
    cases hal
    rfl
  rw [hal', grantsOfResource_eq_blocks, procRules_append, procRules_append]
  rw [procRules_all_global s (globalRulesOf s rid) (∅, [])
    (fun g hg => (mem_globalRulesOf.mp hg).2.2)]
  have hallgroup : ∀ g ∈ groupRulesOf s rid, g.shareType = ShareType.group :=
    fun g hg => (mem_groupRulesOf.mp hg).2.2
  have halluser : ∀ g ∈ userRulesOf s rid, g.shareType = ShareType.user :=
    fun g hg => (mem_userRulesOf.mp hg).2.2
  have hmem_u : u ∈ (procRules s (groupRulesOf s rid) (∅, [])).1 := by
    rw [mem_procRules_fst]
    refine Or.inr ⟨gg, mem_groupRulesOf.mpr ⟨hgg, hgg1, hgg2⟩, Or.inr ⟨hgg2, ?_, ?_⟩⟩
    · exact ⟨m, mem_membersOfGroup.mpr ⟨hm, hm1⟩, hm2⟩
    · rw [hu]
      rfl
  rcases procRules_group_filter_add s u (groupRulesOf s rid) (∅, []) hallgroup
      (Finset.not_mem_empty u) hmem_u with ⟨e, he1, he2, he3⟩
  rw [procRules_all_user s (userRulesOf s rid) _ halluser, List.filter_append, he3,
      filter_user_entries_unique s u uu hu (userRulesOf s rid)
        (nodup_userRules_targetIds s rid hnd) gd
        (mem_userRulesOf.mpr ⟨hgd, hgd1, hgd2⟩) hgd3]
  simp [he1, directEntry]

/-- C2 (amended).  For a non-global resource, `getResourceAccessList`
processes the resource's ShareGrants in one pass over the order returned by
the store — which sorts by the encoded `(shareType, targetId)` key, i.e.
global-type grants (ignored), then **group-type grants, then user-type
grants** — and the seen-set is consulted only while processing group-type
grants.  Consequently every group-derived entry precedes every direct
entry in the returned `users` array. -/
theorem C2_order_amended (s : Store) (rid : String) (r : ResourceRec)
    (al : AccessList)
    (hr : getResource s rid = some r) (hng : r.isGlobal = false)
    (hal : getResourceAccessList s rid = Except.ok al) :
    ∃ gs ds : List AccessEntry, al.users = gs ++ ds ∧
      (∀ e ∈ gs, e.accessType = "group") ∧
      (∀ e ∈ ds, e.accessType = "direct") := by
  rw [getResourceAccessList_specific s rid r hr hng] at hal
  have hal' : al.users = (procRules s (grantsOfResource s rid) (∅, [])).2 := by
    cases hal
    rfl
  rw [hal', grantsOfResource_eq_blocks, procRules_append, procRules_append]
  rw [procRules_all_global s (globalRulesOf s rid) (∅, [])
    (fun g hg => (mem_globalRulesOf.mp hg).2.2)]
  refine ⟨(procRules s (groupRulesOf s rid) (∅, [])).2,
    (userRulesOf s rid).filterMap
      (fun g => (getUser s g.targetId).map (fun x => directEntry g x)), ?_, ?_, ?_⟩
  · exact procRules_all_user s (userRulesOf s rid) _
      (fun g hg => (mem_userRulesOf.mp hg).2.2)
  · intro e he
    rcases procRules_snd_shape_group s (groupRulesOf s rid) (∅, [])
        (fun g hg => (mem_groupRulesOf.mp hg).2.2) e he with h | h
    · exact absurd h (List.not_mem_nil e)
    · exact h
  · intro e he
    rcases List.mem_filterMap.mp he with ⟨g, hg, hmap⟩
    rcases Option.map_eq_some'.mp hmap with ⟨x, hx, rfl⟩
    rfl

/-! ## Accumulator lemmas for the reverse resolver's loops -/

theorem resourceEntryIds_append_one (es : List ResourceEntry) (e : ResourceEntry) :
    resourceEntryIds (es ++ [e]) = insert e.resource.resourceId (resourceEntryIds es) := by
  unfold resourceEntryIds
  simp [List.toFinset_append, Finset.union_comm, Finset.insert_eq]

theorem procDirectShares_ids (s : Store) :
    ∀ (l : List ShareGrant) (acc : Finset String × List ResourceEntry),
      acc.1 = resourceEntryIds acc.2 →
      (procDirectShares s l acc).1 = resourceEntryIds (procDirectShares s l acc).2
  | [], acc, h => h
  | share :: rest, acc, h => by
    simp only [procDirectShares]
    by_cases hm : share.resourceId ∈ acc.1
    · rw [if_pos hm]
      exact procDirectShares_ids s rest acc h
    · rw [if_neg hm]
      cases hr : getResource s share.resourceId with
      | none => exact procDirectShares_ids s rest acc h
      | some r =>
        refine procDirectShares_ids s rest _ ?_
        have hid : r.resourceId = share.resourceId := (getResource_eq_some_mem hr).2
        simp [resourceEntryIds_append_one, directResourceEntry, hid, ← h]

theorem procGroupShares_ids (s : Store) :
    ∀ (l : List ShareGrant) (acc : Finset String × List ResourceEntry),
      acc.1 = resourceEntryIds acc.2 →
      (procGroupShares s l acc).1 = resourceEntryIds (procGroupShares s l acc).2
  | [], acc, h => h
  | share :: rest, acc, h => by
    simp only [procGroupShares]
    by_cases hm : share.resourceId ∈ acc.1
    · rw [if_pos hm]
      exact procGroupShares_ids s rest acc h
    · rw [if_neg hm]
      cases hr : getResource s share.resourceId with
      | none => exact procGroupShares_ids s rest acc h
      | some r =>
        refine procGroupShares_ids s rest _ ?_
        have hid : r.resourceId = share.resourceId := (getResource_eq_some_mem hr).2
        simp [resourceEntryIds_append_one, groupResourceEntry, hid, ← h]

theorem procGlobalResources_ids :
    ∀ (l : List ResourceRec) (acc : Finset String × List ResourceEntry),
      acc.1 = resourceEntryIds acc.2 →
      (procGlobalResources l acc).1 = resourceEntryIds (procGlobalResources l acc).2
  | [], acc, h => h
  | r :: rest, acc, h => by
    simp only [procGlobalResources]
    by_cases hm : r.resourceId ∈ acc.1
    · rw [if_pos hm]
      exact procGlobalResources_ids rest acc h
    · rw [if_neg hm]
      refine procGlobalResources_ids rest _ ?_
      simp [resourceEntryIds_append_one, globalResourceEntry, ← h]

theorem mem_procDirectShares_fst (s : Store) (x : String) :
    ∀ (l : List ShareGrant) (acc : Finset String × List ResourceEntry),
      (x ∈ (procDirectShares s l acc).1 ↔
        x ∈ acc.1 ∨ ∃ sh ∈ l, sh.resourceId = x ∧ (getResource s x).isSome = true)
  | [], acc => by simp [procDirectShares]
  | share :: rest, acc => by
    simp only [procDirectShares]
    by_cases hm : share.resourceId ∈ acc.1
    · rw [if_pos hm, mem_procDirectShares_fst s x rest acc]
      constructor
      · rintro (h | ⟨sh, hsh, hx, hs⟩)
        · exact Or.inl h
        · exact Or.inr ⟨sh, List.mem_cons_of_mem _ hsh, hx, hs⟩
      · rintro (h | ⟨sh, hsh, hx, hs⟩)
        · exact Or.inl h
        · rcases List.mem_cons.mp hsh with rfl | h'
          · exact Or.inl (hx ▸ hm)
          · exact Or.inr ⟨sh, h', hx, hs⟩
    · rw [if_neg hm]
      cases hr : getResource s share.resourceId with
      | none =>
        rw [mem_procDirectShares_fst s x rest acc]
        constructor
        · rintro (h | ⟨sh, hsh, hx, hs⟩)
          · exact Or.inl h
          · exact Or.inr ⟨sh, List.mem_cons_of_mem _ hsh, hx, hs⟩
        · rintro (h | ⟨sh, hsh, hx, hs⟩)
          · exact Or.inl h
          · rcases List.mem_cons.mp hsh with rfl | h'
            · rw [← hx, hr] at hs
              simp at hs
            · exact Or.inr ⟨sh, h', hx, hs⟩
      | some r =>
        rw [mem_procDirectShares_fst s x rest _]
        simp only [Finset.mem_insert]
        constructor
        · rintro ((rfl | h) | ⟨sh, hsh, hx, hs⟩)
          · refine Or.inr ⟨share, List.mem_cons_self _ _, rfl, ?_⟩
            rw [hr]
            rfl
          · exact Or.inl h
          · exact Or.inr ⟨sh, List.mem_cons_of_mem _ hsh, hx, hs⟩
        · rintro (h | ⟨sh, hsh, hx, hs⟩)
          · exact Or.inl (Or.inr h)
          · rcases List.mem_cons.mp hsh with rfl | h'
            · exact Or.inl (Or.inl hx.symm)
            · exact Or.inr ⟨sh, h', hx, hs⟩

theorem mem_procGroupShares_fst (s : Store) (x : String) :
    ∀ (l : List ShareGrant) (acc : Finset String × List ResourceEntry),
      (x ∈ (procGroupShares s l acc).1 ↔
        x ∈ acc.1 ∨ ∃ sh ∈ l, sh.resourceId = x ∧ (getResource s x).isSome = true)
  | [], acc => by simp [procGroupShares]
  | share :: rest, acc => by
    simp only [procGroupShares]
    by_cases hm : share.resourceId ∈ acc.1
    · rw [if_pos hm, mem_procGroupShares_fst s x rest acc]
      constructor
      · rintro (h | ⟨sh, hsh, hx, hs⟩)
        · exact Or.inl h
        · exact Or.inr ⟨sh, List.mem_cons_of_mem _ hsh, hx, hs⟩
      · rintro (h | ⟨sh, hsh, hx, hs⟩)
        · exact Or.inl h
        · rcases List.mem_cons.mp hsh with rfl | h'
          · exact Or.inl (hx ▸ hm)
          · exact Or.inr ⟨sh, h', hx, hs⟩
    · rw [if_neg hm]
      cases hr : getResource s share.resourceId with
      | none =>
        rw [mem_procGroupShares_fst s x rest acc]
        constructor
        · rintro (h | ⟨sh, hsh, hx, hs⟩)
          · exact Or.inl h
          · exact Or.inr ⟨sh, List.mem_cons_of_mem _ hsh, hx, hs⟩
        · rintro (h | ⟨sh, hsh, hx, hs⟩)
          · exact Or.inl h
          · rcases List.mem_cons.mp hsh with rfl | h'
            · rw [← hx, hr] at hs
              simp at hs
            · exact Or.inr ⟨sh, h', hx, hs⟩
      | some r =>
        rw [mem_procGroupShares_fst s x rest _]
        simp only [Finset.mem_insert]
        constructor
        · rintro ((rfl | h) | ⟨sh, hsh, hx, hs⟩)
          · refine Or.inr ⟨share, List.mem_cons_self _ _, rfl, ?_⟩
            rw [hr]
            rfl
          · exact Or.inl h
          · exact Or.inr ⟨sh, List.mem_cons_of_mem _ hsh, hx, hs⟩
        · rintro (h | ⟨sh, hsh, hx, hs⟩)
          · exact Or.inl (Or.inr h)
          · rcases List.mem_cons.mp hsh with rfl | h'
            · exact Or.inl (Or.inl hx.symm)
            · exact Or.inr ⟨sh, h', hx, hs⟩

theorem mem_procGlobalResources_fst (x : String) :
    ∀ (l : List ResourceRec) (acc : Finset String × List ResourceEntry),
      (x ∈ (procGlobalResources l acc).1 ↔
        x ∈ acc.1 ∨ ∃ r ∈ l, r.resourceId = x)
  | [], acc => by simp [procGlobalResources]
  | r :: rest, acc => by
    simp only [procGlobalResources]
    by_cases hm : r.resourceId ∈ acc.1
    · rw [if_pos hm, mem_procGlobalResources_fst x rest acc]
      constructor
      · rintro (h | ⟨r', hr', hx⟩)
        · exact Or.inl h
        · exact Or.inr ⟨r', List.mem_cons_of_mem _ hr', hx⟩
      · rintro (h | ⟨r', hr', hx⟩)
        · exact Or.inl h
        · rcases List.mem_cons.mp hr' with rfl | h'
          · exact Or.inl (hx ▸ hm)
          · exact Or.inr ⟨r', h', hx⟩
    · rw [if_neg hm, mem_procGlobalResources_fst x rest _]
      simp only [Finset.mem_insert]
      constructor
      · rintro ((rfl | h) | ⟨r', hr', hx⟩)
        · exact Or.inr ⟨r, List.mem_cons_self _ _, rfl⟩
        · exact Or.inl h
        · exact Or.inr ⟨r', List.mem_cons_of_mem _ hr', hx⟩
      · rintro (h | ⟨r', hr', hx⟩)
        · exact Or.inl (Or.inr h)
        · rcases List.mem_cons.mp hr' with rfl | h'
          · exact Or.inl (Or.inl hx.symm)
          · exact Or.inr ⟨r', h', hx⟩

theorem getUserResources_some (s : Store) (uid : String) (u0 : UserRec)
    (hu : getUser s uid = some u0) :
    getUserResources s uid = Except.ok (resourceListOf s uid) := by
  unfold getUserResources resourceListOf
  rw [hu]

theorem mem_entryIds {es : List AccessEntry} {x : String} :
    x ∈ entryIds es ↔ ∃ e ∈ es, e.userId = x := by
  simp [entryIds]

theorem mem_resourceEntryIds {es : List ResourceEntry} {x : String} :
    x ∈ resourceEntryIds es ↔ ∃ e ∈ es, e.resource.resourceId = x := by
  simp [resourceEntryIds]

theorem mem_forward_entries (s : Store) (rid x : String) :
    (∃ e ∈ (procRules s (grantsOfResource s rid) (∅, [])).2, e.userId = x) ↔
      x ∈ forwardReach s rid := by
  have hids : (procRules s (grantsOfResource s rid) (∅, [])).1 =
      entryIds (procRules s (grantsOfResource s rid) (∅, [])).2 :=
    procRules_ids s (grantsOfResource s rid) (∅, []) (by simp [entryIds])
  rw [← procRules_start_fst s rid, hids, mem_entryIds]

theorem reverse_seen_eq_ids (s : Store) (uid : String) :
    (procGlobalResources (globalResourceList s)
      (procGroupShares s
        (((membershipsOfUser s uid).map (fun m => grantsTargeting s m.groupId)).flatten)
        (procDirectShares s (grantsTargeting s uid) (∅, [])))).1 =
    resourceEntryIds (procGlobalResources (globalResourceList s)
      (procGroupShares s
        (((membershipsOfUser s uid).map (fun m => grantsTargeting s m.groupId)).flatten)
        (procDirectShares s (grantsTargeting s uid) (∅, [])))).2 := by
  apply procGlobalResources_ids
  apply procGroupShares_ids
  apply procDirectShares_ids
  simp [resourceEntryIds]

theorem mem_reverse_entries (s : Store) (uid R : String) :
    (∃ e ∈ (resourceListOf s uid).resources, e.resource.resourceId = R) ↔
      ((∃ sh ∈ grantsTargeting s uid, sh.resourceId = R ∧
          (getResource s R).isSome = true) ∨
       (∃ m ∈ membershipsOfUser s uid, ∃ sh ∈ grantsTargeting s m.groupId,
          sh.resourceId = R ∧ (getResource s R).isSome = true) ∨
       (∃ r ∈ globalResourceList s, r.resourceId = R)) := by
  unfold resourceListOf
  rw [← mem_resourceEntryIds, ← reverse_seen_eq_ids s uid,
      mem_procGlobalResources_fst, mem_procGroupShares_fst, mem_procDirectShares_fst]
  simp only [Finset.not_mem_empty, false_or]
  constructor
  · rintro ((hd | ⟨sh, hsh, hx, hs⟩) | hg)
    · exact Or.inl hd
    · rcases List.mem_flatten.mp hsh with ⟨l', hl', hshl⟩
      rcases List.mem_map.mp hl' with ⟨m, hm, rfl⟩
      exact Or.inr (Or.inl ⟨m, hm, sh, hshl, hx, hs⟩)
    · exact Or.inr (Or.inr hg)
  · rintro (hd | ⟨m, hm, sh, hsh, hx, hs⟩ | hg)
    · exact Or.inl (Or.inl hd)
    · refine Or.inl (Or.inr ⟨sh, ?_, hx, hs⟩)
      exact List.mem_flatten.mpr ⟨grantsTargeting s m.groupId,
        List.mem_map.mpr ⟨m, hm, rfl⟩, hsh⟩
    · exact Or.inr hg

theorem mem_forwardReach {s : Store} {rid x : String} :
    x ∈ forwardReach s rid ↔
      ((∃ u ∈ s.users, u.userId = x) ∧
       ((∃ g ∈ s.grants, g.resourceId = rid ∧ g.shareType = ShareType.user ∧
           g.targetId = x) ∨
        (∃ g ∈ s.grants, g.resourceId = rid ∧ g.shareType = ShareType.group ∧
           ∃ m ∈ s.memberships, m.groupId = g.targetId ∧ m.userId = x))) := by
  unfold forwardReach
  simp only [Finset.mem_filter, List.mem_toFinset, List.mem_map]

/-- C7 (amended).  Forward/Reverse symmetry holds on stores whose user and
group id spaces are disjoint and do not contain the sentinel `"global"`
(grant target ids typed by shareType), with resource keys unique: an
existing user appears in `getResourceAccessList(R)` exactly when the
existing resource `R` appears in `getUserResources(U)`.  Without the
disjointness condition the reverse resolver, which never filters the
`byTarget` query by shareType, can pick up a user-type grant through a
colliding group id — see the counterexample. -/
theorem C7_symmetry (s : Store) (US GS : List String)
    (htyped : TypedStore s US GS)
    (hndr : (s.resources.map (fun r => r.resourceId)).Nodup)
    (rid uid : String) (r : ResourceRec) (uu : UserRec)
    (hr : getResource s rid = some r) (hu : getUser s uid = some uu)
    (al : AccessList) (rl : ResourceList)
    (hal : getResourceAccessList s rid = Except.ok al)
    (hrl : getUserResources s uid = Except.ok rl) :
    ((∃ e ∈ al.users, e.userId = uid) ↔
     (∃ e ∈ rl.resources, e.resource.resourceId = rid)) := by
  obtain ⟨hU, hG, hM, hT, hdisj, hgU, hgG⟩ := htyped
  have hrl' : rl = resourceListOf s uid := by
    rw [getUserResources_some s uid uu hu] at hrl
    cases hrl
    rfl
  have hrmem := getResource_eq_some_mem hr
  have humem := getUser_eq_some_mem hu
  have huidUS : uid ∈ US := humem.2 ▸ hU uu humem.1
  subst hrl'
  cases hbg : r.isGlobal with
  | true =>
    have hl : ∃ e ∈ al.users, e.userId = uid := by
      rw [getResourceAccessList_global s rid r hr hbg] at hal
      have : al.users = (globalScanAcc s).2 := by
        cases hal
        rfl
      rw [this, globalScanAcc_eq]
      exact ⟨globalUserEntry uu, List.mem_map.mpr ⟨uu, humem.1, rfl⟩, humem.2⟩
    have hrt : ∃ e ∈ (resourceListOf s uid).resources, e.resource.resourceId = rid := by
      rw [mem_reverse_entries]
      refine Or.inr (Or.inr ⟨r, mem_globalResourceList.mpr ⟨hrmem.1, hbg⟩, hrmem.2⟩)
    exact iff_of_true hl hrt
  | false =>
    rw [getResourceAccessList_specific s rid r hr hbg] at hal
    have hal' : al.users = (procRules s (grantsOfResource s rid) (∅, [])).2 := by
      cases hal
      rfl
    rw [hal', mem_forward_entries, mem_reverse_entries, mem_forwardReach]
    have hnoglob : ¬∃ r' ∈ globalResourceList s, r'.resourceId = rid := by
      rintro ⟨r', hr', hid⟩
      have hr'' := mem_globalResourceList.mp hr'
      have : r' = r :=
        List.inj_on_of_nodup_map hndr hr''.1 hrmem.1 (hid.trans hrmem.2.symm)
      rw [this] at hr''
      rw [hr''.2] at hbg
      cases hbg
    have hsome : (getResource s rid).isSome = true := by
      rw [hr]
      rfl
    constructor
    · rintro ⟨_, hD | hGp⟩
      · rcases hD with ⟨g, hg, hgid, hgty, hgt⟩
        exact Or.inl ⟨g, mem_grantsTargeting.mpr ⟨hg, hgt⟩, hgid, hsome⟩
      · rcases hGp with ⟨g, hg, hgid, hgty, m, hm, hmg, hmu⟩
        refine Or.inr (Or.inl ⟨m, mem_membershipsOfUser.mpr ⟨hm, hmu⟩,
          g, mem_grantsTargeting.mpr ⟨hg, hmg.symm⟩, hgid, hsome⟩)
    · rintro (hD | hGp | hGl)
      · rcases hD with ⟨sh, hsh, hid, _⟩
        rcases mem_grantsTargeting.mp hsh with ⟨hshg, hsht⟩
        refine ⟨⟨uu, humem.1, humem.2⟩, Or.inl ⟨sh, hshg, hid, ?_, hsht⟩⟩
        cases hty : sh.shareType with
        | user => rfl
        | group =>
          exfalso
          have := (hT sh hshg).2.1 hty
          rw [hsht] at this
          exact hdisj uid huidUS this
        | global =>
          exfalso
          have := (hT sh hshg).2.2 hty
          rw [hsht] at this
          rw [this] at huidUS
          exact hgU huidUS
      · rcases hGp with ⟨m, hm, sh, hsh, hid, _⟩
        rcases mem_membershipsOfUser.mp hm with ⟨hmm, hmu⟩
        rcases mem_grantsTargeting.mp hsh with ⟨hshg, hsht⟩
        have hgidGS : m.groupId ∈ GS := (hM m hmm).2
        refine ⟨⟨uu, humem.1, humem.2⟩, Or.inr ⟨sh, hshg, hid, ?_, m, hmm, hsht.symm, hmu⟩⟩
        cases hty : sh.shareType with
        | group => rfl
        | user =>
          exfalso
          have := (hT sh hshg).1 hty
          rw [hsht] at this
          exact hdisj m.groupId this hgidGS
        | global =>
          exfalso
          have := (hT sh hshg).2.2 hty
          rw [hsht] at this
          rw [this] at hgidGS
          exact hgG hgidGS
      · exact absurd hGl hnoglob

/-- C4.  For a resource whose `isGlobal` flag is set, the resolver
answers from the `User.scan` branch: `accessType = 'global'`, `totalUsers`
is the number of registered users, and no entry carries `sharedBy`,
`sharedAt` or `permissions` — regardless of the ShareGrants present. -/
theorem C4_global_override (s : Store) (rid : String) (r : ResourceRec)
    (al : AccessList)
    (hndu : (s.users.map (fun u => u.userId)).Nodup)
    (hr : getResource s rid = some r) (hg : r.isGlobal = true)
    (hal : getResourceAccessList s rid = Except.ok al) :
    al.accessType = "global" ∧ al.totalUsers = s.users.length ∧
    ∀ e ∈ al.users, e.sharedBy = none ∧ e.sharedAt = none ∧ e.permissions = none := by
  rw [getResourceAccessList_global s rid r hr hg] at hal
  have hal' : al = ⟨rid, "global", (globalScanAcc s).1.card, (globalScanAcc s).2⟩ := by
    cases hal
    rfl
  subst hal'
  refine ⟨rfl, ?_, ?_⟩
  · show (globalScanAcc s).1.card = s.users.length
    rw [globalScanAcc_eq]
    simp only
    rw [List.toFinset_card_of_nodup hndu, List.length_map]
  · intro e he
    show e.sharedBy = none ∧ e.sharedAt = none ∧ e.permissions = none
    have : e ∈ (globalScanAcc s).2 := he
    rw [globalScanAcc_eq] at this
    rcases List.mem_map.mp this with ⟨u, _, rfl⟩
    exact ⟨rfl, rfl, rfl⟩

/-- C5.  For a non-global resource, `totalUsers` is the cardinality of
the union of the user sets reachable over all grant paths (existing direct
targets united with existing members of granted groups) — overlapping paths
are never summed. -/
theorem C5_count_union (s : Store) (rid : String) (r : ResourceRec)
    (al : AccessList)
    (hr : getResource s rid = some r) (hng : r.isGlobal = false)
    (hal : getResourceAccessList s rid = Except.ok al) :
    al.totalUsers = (forwardReach s rid).card := by
  rw [getResourceAccessList_specific s rid r hr hng] at hal
  have hal' : al = ⟨rid, "specific",
      (procRules s (grantsOfResource s rid) (∅, [])).1.card,
      (procRules s (grantsOfResource s rid) (∅, [])).2⟩ := by
    cases hal
    rfl
  subst hal'
  show (procRules s (grantsOfResource s rid) (∅, [])).1.card = _
  rw [procRules_start_fst s rid]

theorem procGroupMembers_users_exist (s : Store) (rule : ShareGrant) :
    ∀ (ms : List MembershipRec) (acc : Finset String × List AccessEntry),
      ∀ e ∈ (procGroupMembers s rule ms acc).2,
        e ∈ acc.2 ∨ (getUser s e.userId).isSome = true
  | [], acc, e, he => Or.inl he
  | m :: ms, acc, e, he => by
    simp only [procGroupMembers] at he
    by_cases hm : m.userId ∈ acc.1
    · rw [if_pos hm] at he
      exact procGroupMembers_users_exist s rule ms acc e he
    · rw [if_neg hm] at he
      cases hu : getUser s m.userId with
      | none =>
        rw [hu] at he
        exact procGroupMembers_users_exist s rule ms acc e he
      | some u =>
        rw [hu] at he
        rcases procGroupMembers_users_exist s rule ms _ e he with h | h
        · rcases List.mem_append.mp h with h' | h'
          · exact Or.inl h'
          · rcases List.mem_singleton.mp h' with rfl
            refine Or.inr ?_
            show (getUser s m.userId).isSome = true
            rw [hu]
            rfl
        · exact Or.inr h

theorem procRules_users_exist (s : Store) :
    ∀ (rs : List ShareGrant) (acc : Finset String × List AccessEntry),
      ∀ e ∈ (procRules s rs acc).2,
        e ∈ acc.2 ∨ (getUser s e.userId).isSome = true
  | [], acc, e, he => Or.inl he
  | rule :: rs, acc, e, he => by
    simp only [procRules] at he
    cases hty : rule.shareType with
    | user =>
      rw [hty] at he
      cases hu : getUser s rule.targetId with
      | none =>
        rw [hu] at he
        exact procRules_users_exist s rs acc e he
      | some u =>
        rw [hu] at he
        rcases procRules_users_exist s rs _ e he with h | h
        · rcases List.mem_append.mp h with h' | h'
          · exact Or.inl h'
          · rcases List.mem_singleton.mp h' with rfl
            refine Or.inr ?_
            show (getUser s rule.targetId).isSome = true
            rw [hu]
            rfl
        · exact Or.inr h
    | group =>
      rw [hty] at he
      rcases procRules_users_exist s rs _ e he with h | h
      · exact procGroupMembers_users_exist s rule _ acc e h
      · exact Or.inr h
    | global =>
      rw [hty] at he
      exact procRules_users_exist s rs acc e he

theorem procDirectShares_resources_exist (s : Store) :
    ∀ (l : List ShareGrant) (acc : Finset String × List ResourceEntry),
      ∀ e ∈ (procDirectShares s l acc).2,
        e ∈ acc.2 ∨ (getResource s e.resource.resourceId).isSome = true
  | [], acc, e, he => Or.inl he
  | share :: rest, acc, e, he => by
    simp only [procDirectShares] at he
    by_cases hm : share.resourceId ∈ acc.1
    · rw [if_pos hm] at he
      exact procDirectShares_resources_exist s rest acc e he
    · rw [if_neg hm] at he
      cases hres : getResource s share.resourceId with
      | none =>
        rw [hres] at he
        exact procDirectShares_resources_exist s rest acc e he
      | some r =>
        rw [hres] at he
        rcases procDirectShares_resources_exist s rest _ e he with h | h
        · rcases List.mem_append.mp h with h' | h'
          · exact Or.inl h'
          · rcases List.mem_singleton.mp h' with rfl
            refine Or.inr ?_
            show (getResource s r.resourceId).isSome = true
            rw [(getResource_eq_some_mem hres).2, hres]
            rfl
        · exact Or.inr h

theorem procGroupShares_resources_exist (s : Store) :
    ∀ (l : List ShareGrant) (acc : Finset String × List ResourceEntry),
      ∀ e ∈ (procGroupShares s l acc).2,
        e ∈ acc.2 ∨ (getResource s e.resource.resourceId).isSome = true
  | [], acc, e, he => Or.inl he
  | share :: rest, acc, e, he => by
    simp only [procGroupShares] at he
    by_cases hm : share.resourceId ∈ acc.1
    · rw [if_pos hm] at he
      exact procGroupShares_resources_exist s rest acc e he
    · rw [if_neg hm] at he
      cases hres : getResource s share.resourceId with
      | none =>
        rw [hres] at he
        exact procGroupShares_resources_exist s rest acc e he
      | some r =>
        rw [hres] at he
        rcases procGroupShares_resources_exist s rest _ e he with h | h
        · rcases List.mem_append.mp h with h' | h'
          · exact Or.inl h'
          · rcases List.mem_singleton.mp h' with rfl
            refine Or.inr ?_
            show (getResource s r.resourceId).isSome = true
            rw [(getResource_eq_some_mem hres).2, hres]
            rfl
        · exact Or.inr h

theorem procGlobalResources_resources_exist (s : Store) :
    ∀ (l : List ResourceRec) (acc : Finset String × List ResourceEntry),
      (∀ r ∈ l, r ∈ s.resources) →
      ∀ e ∈ (procGlobalResources l acc).2,
        e ∈ acc.2 ∨ (getResource s e.resource.resourceId).isSome = true
  | [], acc, _, e, he => Or.inl he
  | r :: rest, acc, hsub, e, he => by
    simp only [procGlobalResources] at he
    by_cases hm : r.resourceId ∈ acc.1
    · rw [if_pos hm] at he
      exact procGlobalResources_resources_exist s rest acc
        (fun x hx => hsub x (List.mem_cons_of_mem _ hx)) e he
    · rw [if_neg hm] at he
      rcases procGlobalResources_resources_exist s rest _
          (fun x hx => hsub x (List.mem_cons_of_mem _ hx)) e he with h | h
      · rcases List.mem_append.mp h with h' | h'
        · exact Or.inl h'
        · rcases List.mem_singleton.mp h' with rfl
          refine Or.inr (getResource_isSome_iff.mpr ?_)
          exact ⟨r, hsub r (List.mem_cons_self _ _), rfl⟩
      · exact Or.inr h

/-- C10 (amended).  Resolution never fails once the primary entity
exists: every entry `getResourceAccessList` returns names a user record
that still exists, and every entry `getUserResources` returns names a
resource record that still exists, so grants whose target user (forward)
or resource (reverse) was deleted contribute no entry and no count.  A
grant targeting a *deleted group*, however, is resolved through the
group's surviving membership rows — the resolver never consults the Group
entity — and still contributes those members (see the counterexample). -/
theorem C10_dangling_amended (s : Store) (rid uid : String) (r0 : ResourceRec)
    (u0 : UserRec)
    (hr : getResource s rid = some r0) (hu : getUser s uid = some u0) :
    ∃ al rl, getResourceAccessList s rid = Except.ok al ∧
      getUserResources s uid = Except.ok rl ∧
      (∀ e ∈ al.users, (getUser s e.userId).isSome = true) ∧
      (∀ e ∈ rl.resources, (getResource s e.resource.resourceId).isSome = true) := by
  have hrl := getUserResources_some s uid u0 hu
  cases hbg : r0.isGlobal with
  | true =>
    refine ⟨⟨rid, "global", (globalScanAcc s).1.card, (globalScanAcc s).2⟩,
      resourceListOf s uid, getResourceAccessList_global s rid r0 hr hbg, hrl, ?_, ?_⟩
    · intro e he
      have : e ∈ (globalScanAcc s).2 := he
      rw [globalScanAcc_eq] at this
      rcases List.mem_map.mp this with ⟨u, hu', rfl⟩
      exact getUser_isSome_iff.mpr ⟨u, hu', rfl⟩
    · intro e he
      unfold resourceListOf at he
      rcases procGlobalResources_resources_exist s _ _
          (fun x hx => (mem_globalResourceList.mp hx).1) e he with h | h
      · rcases procGroupShares_resources_exist s _ _ e h with h' | h'
        · rcases procDirectShares_resources_exist s _ _ e h' with h'' | h''
          · exact absurd h'' (List.not_mem_nil e)
          · exact h''
        · exact h'
      · exact h
  | false =>
    refine ⟨accessListOf s rid, resourceListOf s uid,
      getResourceAccessList_specific s rid r0 hr hbg, hrl, ?_, ?_⟩
    · intro e he
      have he' : e ∈ (procRules s (grantsOfResource s rid) (∅, [])).2 := he
      rcases procRules_users_exist s _ _ e he' with h | h
      · exact absurd h (List.not_mem_nil e)
      · exact h
    · intro e he
      unfold resourceListOf at he
      rcases procGlobalResources_resources_exist s _ _
          (fun x hx => (mem_globalResourceList.mp hx).1) e he with h | h
      · rcases procGroupShares_resources_exist s _ _ e h with h' | h'
        · rcases procDirectShares_resources_exist s _ _ e h' with h'' | h''
          · exact absurd h'' (List.not_mem_nil e)
          · exact h''
        · exact h'
      · exact h

/-- C10 counterexample.  In `cexC10Store` the grant `(r1, group, g1)`
dangles — group `g1` was deleted — yet its surviving membership row still
lets `u1` in: the resolver returns one entry, attributed to `g1`, and
counts it, contradicting the claim that every dangling grant contributes
no entry and no count. -/
theorem C10_dangling_counterexample :
    (getResourceAccessList cexC10Store "r1").map
        (fun al => (al.totalUsers,
          al.users.map (fun e => (e.userId, e.accessType, e.groupId)))) =
      Except.ok (1, [("u1", "group", some "g1")]) ∧
    getGroup cexC10Store "g1" = none ∧ (1 : Nat) ≠ 0 := by
  refine ⟨rfl, rfl, ?_⟩
  decide

theorem procDirectShares_acc (s : Store) :
    ∀ (l : List ShareGrant) (acc : Finset String × List ResourceEntry),
      procDirectShares s l acc =
        ((procDirectShares s l (acc.1, [])).1,
         acc.2 ++ (procDirectShares s l (acc.1, [])).2)
  | [], acc => by simp [procDirectShares]
  | share :: rest, acc => by
    simp only [procDirectShares]
    by_cases hm : share.resourceId ∈ acc.1
    · simp only [if_pos hm]
      exact procDirectShares_acc s rest acc
    · simp only [if_neg hm]
      cases hres : getResource s share.resourceId with
      | none => exact procDirectShares_acc s rest acc
      | some r =>
        dsimp only
        rw [procDirectShares_acc s rest
              (insert share.resourceId acc.1, acc.2 ++ [directResourceEntry share r]),
            procDirectShares_acc s rest
              (insert share.resourceId acc.1, [] ++ [directResourceEntry share r])]
        simp

theorem procGroupShares_acc (s : Store) :
    ∀ (l : List ShareGrant) (acc : Finset String × List ResourceEntry),
      procGroupShares s l acc =
        ((procGroupShares s l (acc.1, [])).1,
         acc.2 ++ (procGroupShares s l (acc.1, [])).2)
  | [], acc => by simp [procGroupShares]
  | share :: rest, acc => by
    simp only [procGroupShares]
    by_cases hm : share.resourceId ∈ acc.1
    · simp only [if_pos hm]
      exact procGroupShares_acc s rest acc
    · simp only [if_neg hm]
      cases hres : getResource s share.resourceId with
      | none => exact procGroupShares_acc s rest acc
      | some r =>
        dsimp only
        rw [procGroupShares_acc s rest
              (insert share.resourceId acc.1, acc.2 ++ [groupResourceEntry share r]),
            procGroupShares_acc s rest
              (insert share.resourceId acc.1, [] ++ [groupResourceEntry share r])]
        simp

theorem procGlobalResources_acc :
    ∀ (l : List ResourceRec) (acc : Finset String × List ResourceEntry),
      procGlobalResources l acc =
        ((procGlobalResources l (acc.1, [])).1,
         acc.2 ++ (procGlobalResources l (acc.1, [])).2)
  | [], acc => by simp [procGlobalResources]
  | r :: rest, acc => by
    simp only [procGlobalResources]
    by_cases hm : r.resourceId ∈ acc.1
    · simp only [if_pos hm]
      exact procGlobalResources_acc rest acc
    · simp only [if_neg hm]
      rw [procGlobalResources_acc rest
            (insert r.resourceId acc.1, acc.2 ++ [globalResourceEntry r]),
          procGlobalResources_acc rest
            (insert r.resourceId acc.1, [] ++ [globalResourceEntry r])]
      simp

theorem procDirectShares_snd_shape (s : Store) :
    ∀ (l : List ShareGrant) (acc : Finset String × List ResourceEntry),
      ∀ e ∈ (procDirectShares s l acc).2, e ∈ acc.2 ∨ e.accessType = "direct"
  | [], _, e, he => Or.inl he
  | share :: rest, acc, e, he => by
    simp only [procDirectShares] at he
    by_cases hm : share.resourceId ∈ acc.1
    · rw [if_pos hm] at he
      exact procDirectShares_snd_shape s rest acc e he
    · rw [if_neg hm] at he
      cases hres : getResource s share.resourceId with
      | none =>
        rw [hres] at he
        exact procDirectShares_snd_shape s rest acc e he
      | some r =>
        rw [hres] at he
        rcases procDirectShares_snd_shape s rest _ e he with h | h
        · rcases List.mem_append.mp h with h' | h'
          · exact Or.inl h'
          · rcases List.mem_singleton.mp h' with rfl
            exact Or.inr rfl
        · exact Or.inr h

theorem procGroupShares_snd_shape (s : Store) :
    ∀ (l : List ShareGrant) (acc : Finset String × List ResourceEntry),
      ∀ e ∈ (procGroupShares s l acc).2, e ∈ acc.2 ∨ e.accessType = "group"
  | [], _, e, he => Or.inl he
  | share :: rest, acc, e, he => by
    simp only [procGroupShares] at he
    by_cases hm : share.resourceId ∈ acc.1
    · rw [if_pos hm] at he
      exact procGroupShares_snd_shape s rest acc e he
    · rw [if_neg hm] at he
      cases hres : getResource s share.resourceId with
      | none =>
        rw [hres] at he
        exact procGroupShares_snd_shape s rest acc e he
      | some r =>
        rw [hres] at he
        rcases procGroupShares_snd_shape s rest _ e he with h | h
        · rcases List.mem_append.mp h with h' | h'
          · exact Or.inl h'
          · rcases List.mem_singleton.mp h' with rfl
            exact Or.inr rfl
        · exact Or.inr h

theorem procGlobalResources_snd_shape :
    ∀ (l : List ResourceRec) (acc : Finset String × List ResourceEntry),
      ∀ e ∈ (procGlobalResources l acc).2,
        e ∈ acc.2 ∨ (e.accessType = "global" ∧ e.permissions = ["read"] ∧
          e.sharedBy = none ∧ e.sharedAt = none)
  | [], _, e, he => Or.inl he
  | r :: rest, acc, e, he => by
    simp only [procGlobalResources] at he
    by_cases hm : r.resourceId ∈ acc.1
    · rw [if_pos hm] at he
      exact procGlobalResources_snd_shape rest acc e he
    · rw [if_neg hm] at he
      rcases procGlobalResources_snd_shape rest _ e he with h | h
      · rcases List.mem_append.mp h with h' | h'
        · exact Or.inl h'
        · rcases List.mem_singleton.mp h' with rfl
          exact Or.inr ⟨rfl, rfl, rfl, rfl⟩
      · exact Or.inr h

theorem procDirectShares_nodup (s : Store) :
    ∀ (l : List ShareGrant) (acc : Finset String × List ResourceEntry),
      acc.1 = resourceEntryIds acc.2 →
      (acc.2.map (fun e => e.resource.resourceId)).Nodup →
      ((procDirectShares s l acc).2.map (fun e => e.resource.resourceId)).Nodup
  | [], _, _, hnd => hnd
  | share :: rest, acc, hids, hnd => by
    simp only [procDirectShares]
    by_cases hm : share.resourceId ∈ acc.1
    · rw [if_pos hm]
      exact procDirectShares_nodup s rest acc hids hnd
    · rw [if_neg hm]
      cases hres : getResource s share.resourceId with
      | none => exact procDirectShares_nodup s rest acc hids hnd
      | some r =>
        have hid : r.resourceId = share.resourceId := (getResource_eq_some_mem hres).2
        refine procDirectShares_nodup s rest _ ?_ ?_
        · simp [resourceEntryIds_append_one, directResourceEntry, hid, ← hids]
        · simp only [List.map_append, List.map_cons, List.map_nil]
          rw [List.nodup_append]
          refine ⟨hnd, List.nodup_singleton _, ?_⟩
          intro x hx hx'
          rcases List.mem_singleton.mp hx' with rfl
          apply hm
          rw [hids, mem_resourceEntryIds]
          rcases List.mem_map.mp hx with ⟨e, he, heq⟩
          exact ⟨e, he, by rw [heq]; exact (show (directResourceEntry share r).resource.resourceId = share.resourceId from hid)⟩

theorem procGroupShares_nodup (s : Store) :
    ∀ (l : List ShareGrant) (acc : Finset String × List ResourceEntry),
      acc.1 = resourceEntryIds acc.2 →
      (acc.2.map (fun e => e.resource.resourceId)).Nodup →
      ((procGroupShares s l acc).2.map (fun e => e.resource.resourceId)).Nodup
  | [], _, _, hnd => hnd
  | share :: rest, acc, hids, hnd => by
    simp only [procGroupShares]
    by_cases hm : share.resourceId ∈ acc.1
    · rw [if_pos hm]
      exact procGroupShares_nodup s rest acc hids hnd
    · rw [if_neg hm]
      cases hres : getResource s share.resourceId with
      | none => exact procGroupShares_nodup s rest acc hids hnd
      | some r =>
        have hid : r.resourceId = share.resourceId := (getResource_eq_some_mem hres).2
        refine procGroupShares_nodup s rest _ ?_ ?_
        · simp [resourceEntryIds_append_one, groupResourceEntry, hid, ← hids]
        · simp only [List.map_append, List.map_cons, List.map_nil]
          rw [List.nodup_append]
          refine ⟨hnd, List.nodup_singleton _, ?_⟩
          intro x hx hx'
          rcases List.mem_singleton.mp hx' with rfl
          apply hm
          rw [hids, mem_resourceEntryIds]
          rcases List.mem_map.mp hx with ⟨e, he, heq⟩
          exact ⟨e, he, by rw [heq]; exact (show (groupResourceEntry share r).resource.resourceId = share.resourceId from hid)⟩

theorem procGlobalResources_nodup :
    ∀ (l : List ResourceRec) (acc : Finset String × List ResourceEntry),
      acc.1 = resourceEntryIds acc.2 →
      (acc.2.map (fun e => e.resource.resourceId)).Nodup →
      ((procGlobalResources l acc).2.map (fun e => e.resource.resourceId)).Nodup
  | [], _, _, hnd => hnd
  | r :: rest, acc, hids, hnd => by
    simp only [procGlobalResources]
    by_cases hm : r.resourceId ∈ acc.1
    · rw [if_pos hm]
      exact procGlobalResources_nodup rest acc hids hnd
    · rw [if_neg hm]
      refine procGlobalResources_nodup rest _ ?_ ?_
      · simp [resourceEntryIds_append_one, globalResourceEntry, ← hids]
      · simp only [List.map_append, List.map_cons, List.map_nil]
        rw [List.nodup_append]
        refine ⟨hnd, List.nodup_singleton _, ?_⟩
        intro x hx hx'
        rcases List.mem_singleton.mp hx' with rfl
        apply hm
        rw [hids, mem_resourceEntryIds]
        rcases List.mem_map.mp hx with ⟨e, he, heq⟩
        exact ⟨e, he, heq⟩

/-- C6.  `getUserResources` merges direct shares, then group shares,
then global resources, over one seen-set of resourceIds with
first-writer-wins: the result lists each resourceId at most once, in
direct/group/global segments in that order; a resource reachable through a
direct share always surfaces with `accessType = 'direct'`; and each
global entry carries `permissions = ['read']` and no `sharedBy`/`sharedAt`. -/
theorem C6_reverse_merge (s : Store) (uid : String) (u0 : UserRec)
    (rl : ResourceList)
    (hu : getUser s uid = some u0)
    (hrl : getUserResources s uid = Except.ok rl) :
    (rl.resources.map (fun e => e.resource.resourceId)).Nodup ∧
    (∃ ds gs gls : List ResourceEntry, rl.resources = ds ++ gs ++ gls ∧
      (∀ e ∈ ds, e.accessType = "direct") ∧
      (∀ e ∈ gs, e.accessType = "group") ∧
      (∀ e ∈ gls, e.accessType = "global")) ∧
    (∀ e ∈ rl.resources, e.accessType = "global" →
      e.permissions = ["read"] ∧ e.sharedBy = none ∧ e.sharedAt = none) ∧
    (∀ R : String, (∃ shg ∈ s.grants, shg.targetId = uid ∧ shg.resourceId = R) →
      (getResource s R).isSome = true →
      ∃ e ∈ rl.resources, e.resource.resourceId = R ∧ e.accessType = "direct") := by
  have hrl' : rl = resourceListOf s uid := by
    rw [getUserResources_some s uid u0 hu] at hrl
    cases hrl
    rfl
  subst hrl'
  have hres_eq : (resourceListOf s uid).resources =
      (procGlobalResources (globalResourceList s)
        (procGroupShares s
          (((membershipsOfUser s uid).map (fun m => grantsTargeting s m.groupId)).flatten)
          (procDirectShares s (grantsTargeting s uid) (∅, [])))).2 := rfl
  have hids1 : (procDirectShares s (grantsTargeting s uid) (∅, [])).1 =
      resourceEntryIds (procDirectShares s (grantsTargeting s uid) (∅, [])).2 :=
    procDirectShares_ids s _ _ (by simp [resourceEntryIds])
  have hids2 : (procGroupShares s
      (((membershipsOfUser s uid).map (fun m => grantsTargeting s m.groupId)).flatten)
      (procDirectShares s (grantsTargeting s uid) (∅, []))).1 =
      resourceEntryIds (procGroupShares s
        (((membershipsOfUser s uid).map (fun m => grantsTargeting s m.groupId)).flatten)
        (procDirectShares s (grantsTargeting s uid) (∅, []))).2 :=
    procGroupShares_ids s _ _ hids1
  refine ⟨?_, ?_, ?_, ?_⟩
  · rw [hres_eq]
    apply procGlobalResources_nodup _ _ hids2
    apply procGroupShares_nodup s _ _ hids1
    apply procDirectShares_nodup s _ _ (by simp [resourceEntryIds])
    simp
  · refine ⟨(procDirectShares s (grantsTargeting s uid) (∅, [])).2,
      (procGroupShares s
        (((membershipsOfUser s uid).map (fun m => grantsTargeting s m.groupId)).flatten)
        ((procDirectShares s (grantsTargeting s uid) (∅, [])).1, [])).2,
      (procGlobalResources (globalResourceList s)
        ((procGroupShares s
          (((membershipsOfUser s uid).map (fun m => grantsTargeting s m.groupId)).flatten)
          (procDirectShares s (grantsTargeting s uid) (∅, []))).1, [])).2,
      ?_, ?_, ?_, ?_⟩
    · rw [hres_eq,
        procGlobalResources_acc (globalResourceList s)
          (procGroupShares s
            (((membershipsOfUser s uid).map (fun m => grantsTargeting s m.groupId)).flatten)
            (procDirectShares s (grantsTargeting s uid) (∅, []))),
        procGroupShares_acc s
          (((membershipsOfUser s uid).map (fun m => grantsTargeting s m.groupId)).flatten)
          (procDirectShares s (grantsTargeting s uid) (∅, []))]
    · intro e he
      rcases procDirectShares_snd_shape s _ _ e he with h | h
      · exact absurd h (List.not_mem_nil e)
      · exact h
    · intro e he
      rcases procGroupShares_snd_shape s _ _ e he with h | h
      · exact absurd h (List.not_mem_nil e)
      · exact h
    · intro e he
      rcases procGlobalResources_snd_shape _ _ e he with h | h
      · exact absurd h (List.not_mem_nil e)
      · exact h.1
  · intro e he hglob
    rw [hres_eq] at he
    rcases procGlobalResources_snd_shape _ _ e he with h | h
    · rcases procGroupShares_snd_shape s _ _ e h with h' | h'
      · rcases procDirectShares_snd_shape s _ _ e h' with h'' | h''
        · exact absurd h'' (List.not_mem_nil e)
        · exact absurd (hglob ▸ h'') (by decide)
      · exact absurd (hglob ▸ h') (by decide)
    · exact ⟨h.2.1, h.2.2.1, h.2.2.2⟩
  · intro R hgrant hsome
    rcases hgrant with ⟨shg, hshg, hsht, hshr⟩
    have hR1 : R ∈ (procDirectShares s (grantsTargeting s uid) (∅, [])).1 := by
      rw [mem_procDirectShares_fst]
      exact Or.inr ⟨shg, mem_grantsTargeting.mpr ⟨hshg, hsht⟩, hshr, hsome⟩
    rw [hids1, mem_resourceEntryIds] at hR1
    rcases hR1 with ⟨e, he, heid⟩
    have hdir : e.accessType = "direct" := by
      rcases procDirectShares_snd_shape s _ _ e he with h | h
      · exact absurd h (List.not_mem_nil e)
      · exact h
    refine ⟨e, ?_, heid, hdir⟩
    rw [hres_eq,
      procGlobalResources_acc (globalResourceList s)
        (procGroupShares s
          (((membershipsOfUser s uid).map (fun m => grantsTargeting s m.groupId)).flatten)
          (procDirectShares s (grantsTargeting s uid) (∅, []))),
      procGroupShares_acc s
        (((membershipsOfUser s uid).map (fun m => grantsTargeting s m.groupId)).flatten)
        (procDirectShares s (grantsTargeting s uid) (∅, []))]
    exact List.mem_append_left _ (List.mem_append_left _ he)

theorem mem_unshare_grants {l : List ShareGrant} {rid tid : String}
    {ty : ShareType} {g : ShareGrant} :
    g ∈ l.filter (fun g' =>
        !(g'.resourceId == rid && g'.shareType == ty && g'.targetId == tid)) ↔
      g ∈ l ∧ ¬(g.resourceId = rid ∧ g.shareType = ty ∧ g.targetId = tid) := by
  simp only [List.mem_filter, Bool.not_eq_true', Bool.and_eq_false_imp,
    Bool.and_eq_true, beq_iff_eq, beq_eq_false_iff_ne, ne_eq]
  tauto

theorem mem_updateResourceGlobal {s : Store} {rid now : String} {b : Bool}
    {r1 : ResourceRec} :
    r1 ∈ (updateResourceGlobal s rid b now).resources ↔
      ∃ r0 ∈ s.resources,
        r1 = (if r0.resourceId == rid
              then { r0 with isGlobal := b, updatedAt := now } else r0) := by
  unfold updateResourceGlobal
  simp only [List.mem_map]
  constructor
  · rintro ⟨r0, h0, rfl⟩
    exact ⟨r0, h0, rfl⟩
  · rintro ⟨r0, h0, rfl⟩
    exact ⟨r0, h0, rfl⟩

theorem globalSentinel_append {l : List ShareGrant} {g : ShareGrant}
    (hng : g.shareType ≠ ShareType.global) (x : String) :
    (∃ g' ∈ l ++ [g], g'.resourceId = x ∧ g'.shareType = ShareType.global ∧
        g'.targetId = "global") ↔
      (∃ g' ∈ l, g'.resourceId = x ∧ g'.shareType = ShareType.global ∧
        g'.targetId = "global") := by
  constructor
  · rintro ⟨g', hg', hp⟩
    rcases List.mem_append.mp hg' with h | h
    · exact ⟨g', h, hp⟩
    · rcases List.mem_singleton.mp h with rfl
      exact absurd hp.2.1 hng
  · rintro ⟨g', hg', hp⟩
    exact ⟨g', List.mem_append_left _ hg', hp⟩

theorem globalSentinel_append_same {l : List ShareGrant} {g : ShareGrant}
    (hg : g.shareType = ShareType.global) (hgt : g.targetId = "global")
    (x : String) :
    (∃ g' ∈ l ++ [g], g'.resourceId = x ∧ g'.shareType = ShareType.global ∧
        g'.targetId = "global") ↔
      ((∃ g' ∈ l, g'.resourceId = x ∧ g'.shareType = ShareType.global ∧
        g'.targetId = "global") ∨ g.resourceId = x) := by
  constructor
  · rintro ⟨g', hg', hp⟩
    rcases List.mem_append.mp hg' with h | h
    · exact Or.inl ⟨g', h, hp⟩
    · rcases List.mem_singleton.mp h with rfl
      exact Or.inr hp.1
  · rintro (⟨g', hg', hp⟩ | hx)
    · exact ⟨g', List.mem_append_left _ hg', hp⟩
    · exact ⟨g, List.mem_append_right _ (List.mem_singleton_self g), hx, hg, hgt⟩

theorem globalSentinel_filter_nonglobal {l : List ShareGrant}
    {rid tid : String} {ty : ShareType} (hng : ty ≠ ShareType.global)
    (x : String) :
    (∃ g' ∈ l.filter (fun g' =>
        !(g'.resourceId == rid && g'.shareType == ty && g'.targetId == tid)),
      g'.resourceId = x ∧ g'.shareType = ShareType.global ∧
        g'.targetId = "global") ↔
      (∃ g' ∈ l, g'.resourceId = x ∧ g'.shareType = ShareType.global ∧
        g'.targetId = "global") := by
  constructor
  · rintro ⟨g', hg', hp⟩
    exact ⟨g', (mem_unshare_grants.mp hg').1, hp⟩
  · rintro ⟨g', hg', hp⟩
    refine ⟨g', mem_unshare_grants.mpr ⟨hg', ?_⟩, hp⟩
    rintro ⟨_, hty, _⟩
    apply hng
    rw [← hty, hp.2.1]

theorem globalSentinel_filter_other {l : List ShareGrant} {rid : String}
    (x : String) (hx : x ≠ rid) :
    (∃ g' ∈ l.filter (fun g' =>
        !(g'.resourceId == rid && g'.shareType == ShareType.global &&
          g'.targetId == "global")),
      g'.resourceId = x ∧ g'.shareType = ShareType.global ∧
        g'.targetId = "global") ↔
      (∃ g' ∈ l, g'.resourceId = x ∧ g'.shareType = ShareType.global ∧
        g'.targetId = "global") := by
  constructor
  · rintro ⟨g', hg', hp⟩
    exact ⟨g', (mem_unshare_grants.mp hg').1, hp⟩
  · rintro ⟨g', hg', hp⟩
    refine ⟨g', mem_unshare_grants.mpr ⟨hg', ?_⟩, hp⟩
    rintro ⟨hrid, _, _⟩
    exact hx (hp.1 ▸ hrid)

theorem createGrant_snd_found (s : Store) (rid tid sb now : String)
    (perms : List String) (ty : ShareType) (g0 : ShareGrant)
    (hf : findGrant s rid ty tid = some g0) :
    (createGrant s rid ty tid sb perms now).2 = s := by
  unfold createGrant
  rw [hf]

theorem createGrant_snd_new (s : Store) (rid tid sb now : String)
    (perms : List String) (ty : ShareType)
    (hf : findGrant s rid ty tid = none) :
    (createGrant s rid ty tid sb perms now).2 =
      { s with grants := s.grants ++ [⟨rid, ty, tid, sb, now, perms⟩] } := by
  unfold createGrant
  rw [hf]

theorem shareResource_snd_noresource (s : Store) (rid tid sb now : String)
    (perms : List String) (ty : ShareType)
    (hres : getResource s rid = none) :
    (shareResource s rid ty tid sb perms now).2 = s := by
  unfold shareResource
  rw [hres]

theorem shareResource_snd_user (s : Store) (rid tid sb now : String)
    (perms : List String) (r0 : ResourceRec)
    (hres : getResource s rid = some r0) :
    (shareResource s rid ShareType.user tid sb perms now).2 =
      (match getUser s tid with
       | none => s
       | some _ => (createGrant s rid ShareType.user tid sb perms now).2) := by
  unfold shareResource
  rw [hres]
  cases getUser s tid <;> rfl

theorem shareResource_snd_group (s : Store) (rid tid sb now : String)
    (perms : List String) (r0 : ResourceRec)
    (hres : getResource s rid = some r0) :
    (shareResource s rid ShareType.group tid sb perms now).2 =
      (match getGroup s tid with
       | none => s
       | some _ => (createGrant s rid ShareType.group tid sb perms now).2) := by
  unfold shareResource
  rw [hres]
  cases getGroup s tid <;> rfl

theorem shareResource_snd_global (s : Store) (rid tid sb now : String)
    (perms : List String) (r0 : ResourceRec)
    (hres : getResource s rid = some r0) :
    (shareResource s rid ShareType.global tid sb perms now).2 =
      (createGrant (updateResourceGlobal s rid true now) rid
        ShareType.global "global" sb perms now).2 := by
  unfold shareResource
  rw [hres]

theorem unshareResource_user_eq (s : Store) (rid tid now : String) :
    unshareResource s rid ShareType.user tid now =
      { s with grants := s.grants.filter (fun g =>
          !(g.resourceId == rid && g.shareType == ShareType.user &&
            g.targetId == tid)) } := rfl

theorem unshareResource_group_eq (s : Store) (rid tid now : String) :
    unshareResource s rid ShareType.group tid now =
      { s with grants := s.grants.filter (fun g =>
          !(g.resourceId == rid && g.shareType == ShareType.group &&
            g.targetId == tid)) } := rfl

theorem unshareResource_global_eq (s : Store) (rid tid now : String) :
    unshareResource s rid ShareType.global tid now =
      updateResourceGlobal
        { s with grants := s.grants.filter (fun g =>
            !(g.resourceId == rid && g.shareType == ShareType.global &&
              g.targetId == tid)) } rid false now := rfl

theorem updateResourceGlobal_grants (s : Store) (rid now : String) (b : Bool) :
    (updateResourceGlobal s rid b now).grants = s.grants := rfl

theorem findGrant_mem {s : Store} {rid tid : String} {ty : ShareType}
    {g0 : ShareGrant} (hf : findGrant s rid ty tid = some g0) :
    g0 ∈ s.grants ∧ g0.resourceId = rid ∧ g0.shareType = ty ∧
      g0.targetId = tid := by
  have hm := List.mem_of_find?_eq_some hf
  have hp := List.find?_some hf
  simp only [Bool.and_eq_true, beq_iff_eq] at hp
  exact ⟨hm, hp.1.1, hp.1.2, hp.2⟩

/-- C3.  Invariant I1 (`isGlobal` set iff the sentinel-keyed global
ShareGrant exists) is preserved by every Grant Mutator operation, with each
call modelled as one store transition: `shareResource` with shareType
`'global'` sets the flag and ensures the sentinel grant in the same call,
and `unshareResource` with shareType `'global'` (whose targetId per the
data model is the sentinel `'global'`) deletes the grant and clears the
flag in the same call. -/
theorem C3_global_flag_atomic (s : Store) (rid tid sb now : String)
    (perms : List String) (ty : ShareType)
    (hinv : globalInv s)
    (hty : ty = ShareType.global → tid = "global") :
    globalInv (shareResource s rid ty tid sb perms now).2 ∧
    globalInv (unshareResource s rid ty tid now) ∧
    ((getResource s rid).isSome = true →
      (∃ g ∈ (shareResource s rid ShareType.global tid sb perms now).2.grants,
        g.resourceId = rid ∧ g.shareType = ShareType.global ∧
          g.targetId = "global") ∧
      (∀ r1 ∈ (shareResource s rid ShareType.global tid sb perms now).2.resources,
        r1.resourceId = rid → r1.isGlobal = true)) ∧
    (∀ g ∈ (unshareResource s rid ShareType.global "global" now).grants,
      ¬(g.resourceId = rid ∧ g.shareType = ShareType.global ∧
        g.targetId = "global")) ∧
    (∀ r1 ∈ (unshareResource s rid ShareType.global "global" now).resources,
      r1.resourceId = rid → r1.isGlobal = false) := by
  refine ⟨?_, ?_, ?_, ?_, ?_⟩
  · -- shareResource preserves I1
    cases hres : getResource s rid with
    | none => rw [shareResource_snd_noresource s rid tid sb now perms ty hres]; exact hinv
    | some r0 =>
      cases ty with
      | user =>
        rw [shareResource_snd_user s rid tid sb now perms r0 hres]
        cases hu : getUser s tid with
        | none => exact hinv
        | some u0 =>
          cases hf : findGrant s rid ShareType.user tid with
          | some g0 => rw [createGrant_snd_found s rid tid sb now perms ShareType.user g0 hf]; exact hinv
          | none =>
            rw [createGrant_snd_new s rid tid sb now perms ShareType.user hf]
            intro r1 hr1
            refine (hinv r1 hr1).trans (globalSentinel_append ?_ r1.resourceId).symm
            simp
      | group =>
        rw [shareResource_snd_group s rid tid sb now perms r0 hres]
        cases hg : getGroup s tid with
        | none => exact hinv
        | some g0 =>
          cases hf : findGrant s rid ShareType.group tid with
          | some g1 => rw [createGrant_snd_found s rid tid sb now perms ShareType.group g1 hf]; exact hinv
          | none =>
            rw [createGrant_snd_new s rid tid sb now perms ShareType.group hf]
            intro r1 hr1
            refine (hinv r1 hr1).trans (globalSentinel_append ?_ r1.resourceId).symm
            simp
      | global =>
        rw [shareResource_snd_global s rid tid sb now perms r0 hres]
        cases hf : findGrant (updateResourceGlobal s rid true now) rid
            ShareType.global "global" with
        | some g0 =>
          rw [createGrant_snd_found _ rid "global" sb now perms ShareType.global g0 hf]
          have hg0 := findGrant_mem hf
          rw [updateResourceGlobal_grants] at hg0
          intro r1 hr1
          rcases mem_updateResourceGlobal.mp hr1 with ⟨r0', h0', rfl⟩
          by_cases hid : (r0'.resourceId == rid) = true
          · rw [if_pos hid]
            refine iff_of_true rfl ⟨g0, hg0.1, ?_, hg0.2.2.1, hg0.2.2.2⟩
            show g0.resourceId = r0'.resourceId
            rw [hg0.2.1]
            exact (beq_iff_eq.mp hid).symm
          · rw [if_neg hid]
            exact hinv r0' h0'
        | none =>
          rw [createGrant_snd_new _ rid "global" sb now perms ShareType.global hf]
          intro r1 hr1
          have hr1' : r1 ∈ (updateResourceGlobal s rid true now).resources := hr1
          rcases mem_updateResourceGlobal.mp hr1' with ⟨r0', h0', rfl⟩
          rw [updateResourceGlobal_grants]
          by_cases hid : (r0'.resourceId == rid) = true
          · rw [if_pos hid]
            refine iff_of_true rfl
              ⟨⟨rid, ShareType.global, "global", sb, now, perms⟩,
               List.mem_append_right _ (List.mem_singleton_self _), ?_, rfl, rfl⟩
            show rid = r0'.resourceId
            exact (beq_iff_eq.mp hid).symm
          · rw [if_neg hid]
            refine (hinv r0' h0').trans ?_
            refine Iff.trans ?_ (globalSentinel_append_same rfl rfl r0'.resourceId).symm
            constructor
            · exact fun h => Or.inl h
            · rintro (h | hcontra)
              · exact h
              · exact absurd hcontra.symm (by simpa using hid)
  · -- unshareResource preserves I1
    cases ty with
    | user =>
      rw [unshareResource_user_eq]
      intro r1 hr1
      exact (hinv r1 hr1).trans
        (globalSentinel_filter_nonglobal (by decide) r1.resourceId).symm
    | group =>
      rw [unshareResource_group_eq]
      intro r1 hr1
      exact (hinv r1 hr1).trans
        (globalSentinel_filter_nonglobal (by decide) r1.resourceId).symm
    | global =>
      have htid : tid = "global" := hty rfl
      subst htid
      rw [unshareResource_global_eq]
      intro r1 hr1
      rcases mem_updateResourceGlobal.mp hr1 with ⟨r0', h0', rfl⟩
      by_cases hid : (r0'.resourceId == rid) = true
      · rw [if_pos hid]
        refine iff_of_false (by simp) ?_
        rintro ⟨g, hgmem, hp⟩
        refine (mem_unshare_grants.mp hgmem).2 ⟨?_, hp.2.1, hp.2.2⟩
        have hgr : g.resourceId = r0'.resourceId := hp.1
        rw [hgr]
        exact beq_iff_eq.mp hid
      · rw [if_neg hid]
        exact (hinv r0' h0').trans
          (globalSentinel_filter_other r0'.resourceId (by simpa using hid)).symm
  · -- shareResource 'global' sets both the grant and the flag
    intro hsome
    rcases Option.isSome_iff_exists.mp hsome with ⟨r0, hres⟩
    rw [shareResource_snd_global s rid tid sb now perms r0 hres]
    cases hf : findGrant (updateResourceGlobal s rid true now) rid
        ShareType.global "global" with
    | some g0 =>
      rw [createGrant_snd_found _ rid "global" sb now perms ShareType.global g0 hf]
      have hg0 := findGrant_mem hf
      rw [updateResourceGlobal_grants] at hg0
      constructor
      · exact ⟨g0, hg0.1, hg0.2.1, hg0.2.2.1, hg0.2.2.2⟩
      · intro r1 hr1 hid1
        rcases mem_updateResourceGlobal.mp hr1 with ⟨r0', h0', rfl⟩
        by_cases hid : (r0'.resourceId == rid) = true
        · rw [if_pos hid]
        · rw [if_neg hid] at hid1 ⊢
          exact absurd hid1 (by simpa using hid)
    | none =>
      rw [createGrant_snd_new _ rid "global" sb now perms ShareType.global hf]
      constructor
      · refine ⟨⟨rid, ShareType.global, "global", sb, now, perms⟩,
          List.mem_append_right _ (List.mem_singleton_self _), rfl, rfl, rfl⟩
      · intro r1 hr1 hid1
        have hr1' : r1 ∈ (updateResourceGlobal s rid true now).resources := hr1
        rcases mem_updateResourceGlobal.mp hr1' with ⟨r0', h0', rfl⟩
        by_cases hid : (r0'.resourceId == rid) = true
        · rw [if_pos hid]
        · rw [if_neg hid] at hid1 ⊢
          exact absurd hid1 (by simpa using hid)
  · -- unshareResource 'global' removes the sentinel grant
    intro g hg
    rw [unshareResource_global_eq] at hg
    exact (mem_unshare_grants.mp hg).2
  · -- unshareResource 'global' clears the flag
    rw [unshareResource_global_eq]
    intro r1 hr1 hid1
    rcases mem_updateResourceGlobal.mp hr1 with ⟨r0', h0', rfl⟩
    by_cases hid : (r0'.resourceId == rid) = true
    · rw [if_pos hid]
    · rw [if_neg hid] at hid1 ⊢
      exact absurd hid1 (by simpa using hid)

/-- C8 (amended).  Provided no `(r, user, u)` ShareGrant exists
beforehand, sharing a resource with a user and then unsharing it restores
`getResourceAccessList(r)` exactly.  (When such a grant already exists, the
share call fails against the existing key and the unshare then deletes the
pre-existing grant, so the pre-share state is not restored — see the
counterexample.) -/
theorem C8_roundtrip_amended (s : Store) (rid uid sb : String)
    (perms : List String) (now now2 : String)
    (hno : ∀ g ∈ s.grants,
      ¬(g.resourceId = rid ∧ g.shareType = ShareType.user ∧ g.targetId = uid)) :
    getResourceAccessList
      (unshareResource (shareResource s rid ShareType.user uid sb perms now).2
        rid ShareType.user uid now2) rid =
      getResourceAccessList s rid := by
  have hkeep : s.grants.filter (fun g =>
      !(g.resourceId == rid && g.shareType == ShareType.user &&
        g.targetId == uid)) = s.grants := by
    rw [List.filter_eq_self]
    intro g hg
    have h := hno g hg
    cases hb : (g.resourceId == rid && g.shareType == ShareType.user &&
        g.targetId == uid) with
    | false => simp [hb]
    | true =>
      exfalso
      apply h
      simpa [Bool.and_eq_true, beq_iff_eq, and_assoc] using hb
  have hstore : unshareResource
      (shareResource s rid ShareType.user uid sb perms now).2
      rid ShareType.user uid now2 = s := by
    rw [unshareResource_user_eq]
    have hcase : (shareResource s rid ShareType.user uid sb perms now).2 = s ∨
        (shareResource s rid ShareType.user uid sb perms now).2 =
          { s with grants :=
              s.grants ++ [⟨rid, ShareType.user, uid, sb, now, perms⟩] } := by
      cases hres : getResource s rid with
      | none =>
        exact Or.inl (shareResource_snd_noresource s rid uid sb now perms
          ShareType.user hres)
      | some r0 =>
        rw [shareResource_snd_user s rid uid sb now perms r0 hres]
        cases hu : getUser s uid with
        | none => exact Or.inl rfl
        | some u0 =>
          cases hf : findGrant s rid ShareType.user uid with
          | some g0 =>
            exact Or.inl (createGrant_snd_found s rid uid sb now perms
              ShareType.user g0 hf)
          | none =>
            exact Or.inr (createGrant_snd_new s rid uid sb now perms
              ShareType.user hf)
    rcases hcase with h | h
    · rw [h, hkeep]
    · rw [h]
      have hnew : List.filter (fun g =>
          !(g.resourceId == rid && g.shareType == ShareType.user &&
            g.targetId == uid))
          [(⟨rid, ShareType.user, uid, sb, now, perms⟩ : ShareGrant)] = [] := by
        simp
      simp only [List.filter_append, hkeep, hnew, List.append_nil]
  rw [hstore]

/-- C8 counterexample.  In `cexC8Store` the grant `(r1, user, u1)`
already exists; `shareResource` then fails (conditional create) and
`unshareResource` deletes the pre-existing grant, so the round trip drops
`totalUsers` from 1 to 0 instead of restoring the pre-share state. -/
theorem C8_roundtrip_counterexample :
    (getResourceAccessList cexC8Store "r1").map (fun al => al.totalUsers) =
      Except.ok 1 ∧
    (getResourceAccessList
        (unshareResource
          (shareResource cexC8Store "r1" ShareType.user "u1" "u9" ["read"] "t9").2
          "r1" ShareType.user "u1" "t9b") "r1").map (fun al => al.totalUsers) =
      Except.ok 0 ∧
    (1 : Nat) ≠ 0 := by
  refine ⟨rfl, rfl, ?_⟩
  decide

/-- C9 (amended).  Re-sharing an existing `(resourceId, shareType,
targetId)` key does not upsert: ElectroDB `create` performs a conditional
put, so the call fails with the wrapped conditional-check error and the
stored grant's `permissions`/`sharedBy`/`sharedAt` are left unchanged. -/
theorem C9_upsert_amended (s : Store) (rid tid sb now : String)
    (perms : List String) (ty : ShareType)
    (hres : (getResource s rid).isSome = true)
    (huser : ty = ShareType.user → (getUser s tid).isSome = true)
    (hgroup : ty = ShareType.group → (getGroup s tid).isSome = true)
    (g0 : ShareGrant) (hg0 : g0 ∈ s.grants) (hk1 : g0.resourceId = rid)
    (hk2 : g0.shareType = ty)
    (hk3 : g0.targetId =
      (match ty with | ShareType.global => "global" | _ => tid)) :
    (shareResource s rid ty tid sb perms now).1 =
      Except.error "Failed to share resource: The conditional request failed" ∧
    (shareResource s rid ty tid sb perms now).2.grants = s.grants := by
  rcases Option.isSome_iff_exists.mp hres with ⟨r0, hres'⟩
  unfold shareResource
  rw [hres']
  cases ty with
  | user =>
    rcases Option.isSome_iff_exists.mp (huser rfl) with ⟨u0, hu⟩
    rw [hu]
    have hfs : (findGrant s rid ShareType.user tid).isSome = true := by
      unfold findGrant
      rw [List.find?_isSome]
      refine ⟨g0, hg0, ?_⟩
      simp [hk1, hk2, hk3]
    rcases Option.isSome_iff_exists.mp hfs with ⟨g1, hf⟩
    unfold createGrant
    rw [hf]
    exact ⟨rfl, rfl⟩
  | group =>
    rcases Option.isSome_iff_exists.mp (hgroup rfl) with ⟨gg0, hgrp⟩
    rw [hgrp]
    have hfs : (findGrant s rid ShareType.group tid).isSome = true := by
      unfold findGrant
      rw [List.find?_isSome]
      refine ⟨g0, hg0, ?_⟩
      simp [hk1, hk2, hk3]
    rcases Option.isSome_iff_exists.mp hfs with ⟨g1, hf⟩
    unfold createGrant
    rw [hf]
    exact ⟨rfl, rfl⟩
  | global =>
    dsimp only
    have hfs : (findGrant (updateResourceGlobal s rid true now) rid
        ShareType.global "global").isSome = true := by
      unfold findGrant
      rw [List.find?_isSome]
      refine ⟨g0, ?_, ?_⟩
      · rw [updateResourceGlobal_grants]
        exact hg0
      · simp [hk1, hk2, hk3]
    rcases Option.isSome_iff_exists.mp hfs with ⟨g1, hf⟩
    unfold createGrant
    rw [hf]
    exact ⟨rfl, rfl⟩

/-- C9 counterexample.  Re-sharing the existing key `(r1, user, u1)` of
`cexC9Store` with new permissions and a new sharer fails with the
conditional-check error and leaves the stored grant (sharedBy `alice`,
permissions `[read]`) untouched — the claimed upsert does not happen. -/
theorem C9_upsert_counterexample :
    (shareResource cexC9Store "r1" ShareType.user "u1" "bob" ["write"] "t5").1 =
      Except.error "Failed to share resource: The conditional request failed" ∧
    (shareResource cexC9Store "r1" ShareType.user "u1" "bob" ["write"] "t5").2.grants =
      [⟨"r1", ShareType.user, "u1", "alice", "t0", ["read"]⟩] := ⟨rfl, rfl⟩

/-- C1 counterexample.  In `cexC1Store`, user `u1` holds both a direct
grant and a group grant to the non-global resource `r1`; the resolver
returns `u1` twice — as a group entry first, then a direct entry — not
once with `accessType = 'direct'`. -/
theorem C1_dedup_counterexample :
    (getResourceAccessList cexC1Store "r1").map
        (fun al => (al.users.filter (fun e => e.userId == "u1")).map
          (fun e => e.accessType)) =
      Except.ok ["group", "direct"] ∧
    (["group", "direct"] : List String) ≠ ["direct"] := by
  refine ⟨rfl, ?_⟩
  decide

/-- C2 counterexample.  In `cexC2Store` the resolver processes the
group grant before the user grant (store order sorts `group` before
`user`), and the direct entry is pushed although `u2` was already seen, so
the output is `[group, direct]` — had the claimed order (user-type grants
first, one seen-set across both phases) been followed, the output would
have been `[direct]` alone. -/
theorem C2_order_counterexample :
    (getResourceAccessList cexC2Store "r2").map
        (fun al => al.users.map (fun e => e.accessType)) =
      Except.ok ["group", "direct"] ∧
    (["group", "direct"] : List String) ≠ ["direct"] := by
  refine ⟨rfl, ?_⟩
  decide

/-- Witness instantiating `C1_dedup_amended` on `cexC1Store`. -/
theorem C1_dedup_amended_witness :
    ((accessListOf cexC1Store "r1").users.filter (fun e => e.userId == "u1")).map
        (fun e => e.accessType) = ["group", "direct"] :=
  C1_dedup_amended cexC1Store "r1" "u1" (mkResource "r1" false) (mkUser "u1")
    (by decide) rfl rfl rfl
    (mkGrant "r1" ShareType.user "u1") (by decide) rfl rfl rfl
    (mkGrant "r1" ShareType.group "g1") (by decide) rfl rfl
    (mkMember "u1" "g1") (by decide) rfl rfl
    (accessListOf cexC1Store "r1") rfl

/-- Witness instantiating `C2_order_amended` on `cexC2Store`. -/
theorem C2_order_amended_witness :
    ∃ gs ds : List AccessEntry,
      (accessListOf cexC2Store "r2").users = gs ++ ds ∧
      (∀ e ∈ gs, e.accessType = "group") ∧
      (∀ e ∈ ds, e.accessType = "direct") :=
  C2_order_amended cexC2Store "r2" (mkResource "r2" false)
    (accessListOf cexC2Store "r2") rfl rfl rfl

/-- Witness instantiating `C3_global_flag_atomic` on `wfC3Store`. -/
theorem C3_global_flag_atomic_witness :
    globalInv (shareResource wfC3Store "r1" ShareType.user "u1" "s1" ["read"] "t2").2 ∧
    globalInv (unshareResource wfC3Store "r1" ShareType.user "u1" "t2") :=
  ⟨(C3_global_flag_atomic wfC3Store "r1" "u1" "s1" "t2" ["read"] ShareType.user
      (by unfold globalInv; decide) (by decide)).1,
   (C3_global_flag_atomic wfC3Store "r1" "u1" "s1" "t2" ["read"] ShareType.user
      (by unfold globalInv; decide) (by decide)).2.1⟩

/-- Witness instantiating `C4_global_override` on `wfC4Store`. -/
theorem C4_global_override_witness :
    (globalAccessListOf wfC4Store "r2").accessType = "global" ∧
    (globalAccessListOf wfC4Store "r2").totalUsers = wfC4Store.users.length ∧
    ∀ e ∈ (globalAccessListOf wfC4Store "r2").users,
      e.sharedBy = none ∧ e.sharedAt = none ∧ e.permissions = none :=
  C4_global_override wfC4Store "r2" (mkResource "r2" true)
    (globalAccessListOf wfC4Store "r2") (by decide) rfl rfl rfl

/-- Witness instantiating `C5_count_union` on `wfC5Store` (direct grant to
`u1` plus a group grant over `{u1, u2}`: the union has two users). -/
theorem C5_count_union_witness :
    (accessListOf wfC5Store "r1").totalUsers = (forwardReach wfC5Store "r1").card :=
  C5_count_union wfC5Store "r1" (mkResource "r1" false)
    (accessListOf wfC5Store "r1") rfl rfl rfl

/-- Witness instantiating `C6_reverse_merge` on `wfC6Store`. -/
theorem C6_reverse_merge_witness :
    ((resourceListOf wfC6Store "u1").resources.map
      (fun e => e.resource.resourceId)).Nodup :=
  (C6_reverse_merge wfC6Store "u1" (mkUser "u1")
    (resourceListOf wfC6Store "u1") rfl rfl).1

/-- Witness instantiating `C7_symmetry` on `wfC7Store`: `u2` reaches `r1`
through group `g1`, so symmetry puts `r1` in `u2`'s resource list. -/
theorem C7_symmetry_witness :
    ∃ e ∈ (resourceListOf wfC7Store "u2").resources,
      e.resource.resourceId = "r1" :=
  (C7_symmetry wfC7Store ["u1", "u2"] ["g1"] (by unfold TypedStore; decide)
    (by decide) "r1" "u2"
    (mkResource "r1" false) (mkUser "u2") rfl rfl
    (accessListOf wfC7Store "r1") (resourceListOf wfC7Store "u2") rfl rfl).mp
    (by decide)

/-- Witness instantiating `C8_roundtrip_amended` on `wfC8Store`. -/
theorem C8_roundtrip_amended_witness :
    getResourceAccessList
      (unshareResource
        (shareResource wfC8Store "r1" ShareType.user "u1" "s1" ["read"] "t5").2
        "r1" ShareType.user "u1" "t6") "r1" =
      getResourceAccessList wfC8Store "r1" :=
  C8_roundtrip_amended wfC8Store "r1" "u1" "s1" ["read"] "t5" "t6" (by decide)

/-- Witness instantiating `C9_upsert_amended` on `cexC9Store`. -/
theorem C9_upsert_amended_witness :
    (shareResource cexC9Store "r1" ShareType.user "u1" "bob" ["write"] "t5").1 =
      Except.error "Failed to share resource: The conditional request failed" :=
  (C9_upsert_amended cexC9Store "r1" "u1" "bob" "t5" ["write"] ShareType.user
    (by decide) (by decide) (by decide)
    ⟨"r1", ShareType.user, "u1", "alice", "t0", ["read"]⟩
    (by decide) rfl rfl rfl).1

/-- Witness instantiating `C10_dangling_amended` on `wfC3Store`. -/
theorem C10_dangling_amended_witness :
    ∃ al rl, getResourceAccessList wfC3Store "r1" = Except.ok al ∧
      getUserResources wfC3Store "u1" = Except.ok rl ∧
      (∀ e ∈ al.users, (getUser wfC3Store e.userId).isSome = true) ∧
      (∀ e ∈ rl.resources,
        (getResource wfC3Store e.resource.resourceId).isSome = true) :=
  C10_dangling_amended wfC3Store "r1" "u1" (mkResource "r1" false)
    (mkUser "u1") rfl rfl

/-- C7 counterexample.  In `cexC7Store` the string `x` is both a userId and
a groupId; `u1` and `r1` both exist, `u1` does not appear in
`getResourceAccessList(r1)` (the only entry is the directly-granted user
`x`), yet `r1` appears in `getUserResources(u1)`: the reverse resolver
reads the grants targeting `u1`'s group `x` without checking their
shareType and so treats the user-type grant `(r1, user, x)` as a group
share.  Symmetry fails as stated. -/
theorem C7_symmetry_counterexample :
    (getResourceAccessList cexC7Store "r1").map
        (fun al => al.users.map (fun e => e.userId)) = Except.ok ["x"] ∧
    (getUserResources cexC7Store "u1").map
        (fun rl => rl.resources.map
          (fun e => (e.resource.resourceId, e.accessType))) =
      Except.ok [("r1", "group")] ∧
    (getUser cexC7Store "u1").isSome = true ∧
    (getResource cexC7Store "r1").isSome = true ∧
    "u1" ∉ (["x"] : List String) := by
  refine ⟨rfl, rfl, rfl, rfl, ?_⟩
  decide
